import Mathlib

/-!
# SlopeR2Product (src/data/stream/slope_r2_product.cpp)

A shallow embedding of the class `SlopeR2Product` and a verification of its
specification.

* `std::vector<double>` is a `List α`; `double` is an arbitrary linearly ordered
  field `α` (exact arithmetic, no rounding, no NaN, no infinities).  `std::sqrt`
  is a parameter of the functions that call it; theorems that need a property
  of the square root are stated over `ℝ` with `Real.sqrt`.
* The namespace `IEEE` models `double` itself (rounding to nearest, overflow,
  infinities, NaN) and embeds `Normalize` over it, for the properties of
  `Normalize` that exact arithmetic cannot decide.
* A C++ exception is a value of `Exn` (exception class and `what()` message);
  a member function that may throw returns `Except Exn _`.
* Loops are left folds in source order.
-/

namespace SlopeR2

/-! ## Exceptions -/

/-- The two standard exception classes thrown by the source. -/
inductive ExnClass where
  | invalid_argument
  | runtime_error
  deriving DecidableEq

/-- A thrown C++ exception: its class and its message. -/
structure Exn where
  cls : ExnClass
  what : String
  deriving DecidableEq

/-- Thrown by `Normalize` (line 23) and `CalcMean` (line 45). -/
def EmptySeriesError : Exn :=
  ⟨ExnClass.invalid_argument, "Input series cannot be empty"⟩

/-- Thrown by `Normalize` (line 28). -/
def DegenerateSeriesError : Exn :=
  ⟨ExnClass.runtime_error, "All values are identical, cannot normalize"⟩

/-- Thrown by `CalcCovariance` (line 61). -/
def SizeMismatchError : Exn :=
  ⟨ExnClass.invalid_argument, "X and Y series must have the same size"⟩

/-- Thrown by `CalcSlopeR2Product` (line 78). -/
def ZeroVarianceError : Exn :=
  ⟨ExnClass.runtime_error, "Variance is zero, cannot compute regression parameters"⟩

/-! ## The class and its member functions -/

/-- The class `SlopeR2Product`: its only data member is `close_prices`. -/
structure SlopeR2Product (α : Type) where
  close_prices : List α

section Code

variable {α : Type} [LinearOrderedField α]

/-- The value `*std::min_element(first, last)` on the non-empty range `v :: vs`:
the scan keeps the current smallest `m` and replaces it by `x` when `x < m`. -/
def min_element (v : α) (vs : List α) : α :=
  vs.foldl (fun m x => if x < m then x else m) v

/-- The value `*std::max_element(first, last)` on the non-empty range `v :: vs`:
the scan keeps the current largest `m` and replaces it by `x` when `m < x`. -/
def max_element (v : α) (vs : List α) : α :=
  vs.foldl (fun m x => if m < x then x else m) v

/-- Member function `SlopeR2Product::Normalize` (lines 21-35): the empty check,
the two scans, the equality check, then the `push_back` loop. -/
def Normalize (series : List α) : Except Exn (List α) :=
  match series with
  | [] => Except.error EmptySeriesError
  | v :: vs =>
    let min_val := min_element v vs
    let max_val := max_element v vs
    if min_val = max_val then
      Except.error DegenerateSeriesError
    else
      Except.ok ((v :: vs).foldl
        (fun normalized val => normalized ++ [(val - min_val) / (max_val - min_val)]) [])

/-- Member function `SlopeR2Product::CreateXseries` (lines 37-41): `std::iota` from `1.0`
writes the running value and increments it, `size` times. -/
def CreateXseries (size : Nat) : List α :=
  List.iterate (fun value => value + 1) 1 size

/-- Member function `SlopeR2Product::CalcMean` (lines 43-48): `std::accumulate` from `0.0`
is a left-to-right sum. -/
def CalcMean (series : List α) : Except Exn α :=
  if series.isEmpty then
    Except.error EmptySeriesError
  else
    Except.ok (series.foldl (fun acc value => acc + value) 0 / (series.length : α))

/-- Member function `SlopeR2Product::CalcVariance` (lines 50-56): the
accumulation loop, then the division by `series.size()`. -/
def CalcVariance (series : List α) (mean : α) : α :=
  series.foldl (fun variance value => variance + (value - mean) * (value - mean)) 0
    / (series.length : α)

/-- Member function `SlopeR2Product::CalcCovariance` (lines 58-68): the index loop reads
`x[i]` and `y[i]` for `i < x.size()`, the two sizes being equal. -/
def CalcCovariance (x : List α) (x_mean : α) (y : List α) (y_mean : α) : Except Exn α :=
  if x.length ≠ y.length then
    Except.error SizeMismatchError
  else
    Except.ok ((List.zip x y).foldl
      (fun covariance xy => covariance + (xy.1 - x_mean) * (xy.2 - y_mean)) 0
        / (x.length : α))

/-- The local variables of `CalcSlopeR2Product` (lines 71-82) at the point
where the return expression is evaluated. -/
structure Locals (α : Type) where
  normalized_prices : List α
  normalized_x : List α
  x_mean : α
  y_mean : α
  variance_x : α
  variance_y : α
  covariance : α
  slope : α
  correlation : α

/-- Lines 71-82 of `SlopeR2Product::CalcSlopeR2Product`: every statement before
the `return`, yielding the locals or the exception that was thrown.
`sqrt` is `std::sqrt`. -/
def SlopeR2Product.CalcLocals (sqrt : α → α) (self : SlopeR2Product α) :
    Except Exn (Locals α) := do
  let normalized_prices ← Normalize self.close_prices
  let normalized_x ← Normalize (CreateXseries normalized_prices.length)
  let x_mean ← CalcMean normalized_x
  let y_mean ← CalcMean normalized_prices
  let variance_x := CalcVariance normalized_x x_mean
  let variance_y := CalcVariance normalized_prices y_mean
  if variance_x = 0 ∨ variance_y = 0 then
    Except.error ZeroVarianceError
  else do
    let covariance ← CalcCovariance normalized_x x_mean normalized_prices y_mean
    let slope := covariance / variance_x
    let correlation := covariance / (sqrt variance_x * sqrt variance_y)
    pure
      { normalized_prices := normalized_prices
        normalized_x := normalized_x
        x_mean := x_mean
        y_mean := y_mean
        variance_x := variance_x
        variance_y := variance_y
        covariance := covariance
        slope := slope
        correlation := correlation }

/-- Member function `SlopeR2Product::CalcSlopeR2Product` (lines 70-84): the
statements of lines 71-82, then `return slope * (correlation * correlation)`. -/
def SlopeR2Product.CalcSlopeR2Product (sqrt : α → α) (self : SlopeR2Product α) :
    Except Exn α := do
  let l ← self.CalcLocals sqrt
  pure (l.slope * (l.correlation * l.correlation))

/-- The memory a call of `CalcSlopeR2Product` works on: the data member
`close_prices` of the instance and the locals declared on lines 71-82.  A local
holds a placeholder until the statement that declares it assigns it. -/
structure Store (α : Type) where
  close_prices : List α
  normalized_prices : List α
  normalized_x : List α
  x_mean : α
  y_mean : α
  variance_x : α
  variance_y : α
  covariance : α
  slope : α
  correlation : α

/-- Line 71: `auto normalized_prices = Normalize(close_prices);`. -/
def line71 (σ : Store α) : Except Exn (Store α) := do
  let value ← Normalize σ.close_prices
  pure { σ with normalized_prices := value }

/-- Line 72: `auto normalized_x = Normalize(CreateXseries(normalized_prices.size()));`. -/
def line72 (σ : Store α) : Except Exn (Store α) := do
  let value ← Normalize (CreateXseries σ.normalized_prices.length)
  pure { σ with normalized_x := value }

/-- Line 73: `double x_mean = CalcMean(normalized_x);`. -/
def line73 (σ : Store α) : Except Exn (Store α) := do
  let value ← CalcMean σ.normalized_x
  pure { σ with x_mean := value }

/-- Line 74: `double y_mean = CalcMean(normalized_prices);`. -/
def line74 (σ : Store α) : Except Exn (Store α) := do
  let value ← CalcMean σ.normalized_prices
  pure { σ with y_mean := value }

/-- Line 75: `double variance_x = CalcVariance(normalized_x, x_mean);`. -/
def line75 (σ : Store α) : Except Exn (Store α) :=
  pure { σ with variance_x := CalcVariance σ.normalized_x σ.x_mean }

/-- Line 76: `double variance_y = CalcVariance(normalized_prices, y_mean);`. -/
def line76 (σ : Store α) : Except Exn (Store α) :=
  pure { σ with variance_y := CalcVariance σ.normalized_prices σ.y_mean }

/-- Lines 77-79: the zero-variance guard, which throws or changes nothing. -/
def line77 (σ : Store α) : Except Exn (Store α) :=
  if σ.variance_x = 0 ∨ σ.variance_y = 0 then
    Except.error ZeroVarianceError
  else
    pure σ

/-- Line 80: `double covariance = CalcCovariance(normalized_x, x_mean, normalized_prices, y_mean);`. -/
def line80 (σ : Store α) : Except Exn (Store α) := do
  let value ← CalcCovariance σ.normalized_x σ.x_mean σ.normalized_prices σ.y_mean
  pure { σ with covariance := value }

/-- Line 81: `double slope = covariance / variance_x;`. -/
def line81 (σ : Store α) : Except Exn (Store α) :=
  pure { σ with slope := σ.covariance / σ.variance_x }

/-- Line 82: `double correlation = covariance / (std::sqrt(variance_x) * std::sqrt(variance_y));`. -/
def line82 (sqrt : α → α) (σ : Store α) : Except Exn (Store α) :=
  pure { σ with correlation := σ.covariance / (sqrt σ.variance_x * sqrt σ.variance_y) }

/-- Running statements in sequence on a store: the run stops at the first
statement that throws, with the exception and the store as it was then. -/
def exec : List (Store α → Except Exn (Store α)) → Store α → Option Exn × Store α
  | [], σ => (none, σ)
  | stmt :: rest, σ =>
    match stmt σ with
    | Except.error e => (some e, σ)
    | Except.ok σ1 => exec rest σ1

/-- The statements of `CalcSlopeR2Product` before its `return`, in source order. -/
def CalcSlopeR2Product_body (sqrt : α → α) : List (Store α → Except Exn (Store α)) :=
  [line71, line72, line73, line74, line75, line76, line77, line80, line81, line82 sqrt]

/-- A call of `CalcSlopeR2Product` on an instance, statement by statement on a
store: the store starts with the instance data member and unassigned locals,
the body runs, and the call yields its outcome (the exception thrown, or the
value of the `return` expression of line 83) together with the instance as the
store leaves it. -/
def SlopeR2Product.call_CalcSlopeR2Product (sqrt : α → α) (self : SlopeR2Product α) :
    Except Exn α × SlopeR2Product α :=
  match exec (CalcSlopeR2Product_body sqrt)
      { close_prices := self.close_prices
        normalized_prices := []
        normalized_x := []
        x_mean := 0
        y_mean := 0
        variance_x := 0
        variance_y := 0
        covariance := 0
        slope := 0
        correlation := 0 } with
  | (some e, σ) => (Except.error e, { close_prices := σ.close_prices })
  | (none, σ) =>
    (Except.ok (σ.slope * (σ.correlation * σ.correlation)), { close_prices := σ.close_prices })

end Code

/-! ## The quantities named by the specification -/

section SpecWords

variable {α : Type} [LinearOrderedField α]

/-- The index series of the specification: the values `1, 2, ..., n`. -/
def IndexSeries (n : Nat) : List α :=
  (List.range n).map (fun (i : Nat) => (i : α) + 1)

/-- The arithmetic mean of a series: the sum of its elements divided by their count. -/
def Mean (s : List α) : α :=
  s.sum / (s.length : α)

/-- The population variance of a series: the sum of the squared deviations from
its arithmetic mean, divided by the count. -/
def PopulationVariance (s : List α) : α :=
  (s.map (fun v => (v - Mean s) ^ 2)).sum / (s.length : α)

/-- The population covariance of two series: the sum over paired elements of the
products of the deviations from the two arithmetic means, divided by the count. -/
def PopulationCovariance (x y : List α) : α :=
  (List.zipWith (fun a b => (a - Mean x) * (b - Mean y)) x y).sum / (x.length : α)

/-- The regression slope of the specification: `covariance / varX`. -/
def Slope (x y : List α) : α :=
  PopulationCovariance x y / PopulationVariance x

/-- The correlation of the specification:
`covariance / (sqrt(varX) * sqrt(varY))`. -/
def Correlation (sqrt : α → α) (x y : List α) : α :=
  PopulationCovariance x y / (sqrt (PopulationVariance x) * sqrt (PopulationVariance y))

end SpecWords

/-! ## IEEE 754 binary64 arithmetic

The functions above take `double` as an exact ordered field.  This section
models the type `double` itself, with rounding to nearest (ties to even),
overflow to the infinities and NaN, and embeds `Normalize` over it.  The two
zeros are one value: they compare equal, and the sign of a zero matters only
for a division by zero, which takes the divisor as `+0`. -/

namespace IEEE

/-- A `double`: a finite value (the rational number it denotes), an infinity, or NaN. -/
inductive Double where
  | finite (q : ℚ)
  | pos_inf
  | neg_inf
  | nan
  deriving DecidableEq

/-- The rationals that are finite `double` values: `n * 2^e` with a significand
`|n| < 2^53` and an exponent `-1074 <= e <= 971`. -/
def IsDouble (q : ℚ) : Prop :=
  ∃ n e : ℤ, |n| < 2 ^ 53 ∧ -1074 ≤ e ∧ e ≤ 971 ∧ q = (n : ℚ) * (2 : ℚ) ^ e

/-- Rounding to the nearest integer, a tie going to the even one. -/
def roundHalfEven (x : ℚ) : ℤ :=
  if x - ⌊x⌋ < 1 / 2 then ⌊x⌋
  else if 1 / 2 < x - ⌊x⌋ then ⌊x⌋ + 1
  else if ⌊x⌋ % 2 = 0 then ⌊x⌋
  else ⌊x⌋ + 1

/-- The spacing of the `double` values around a magnitude `a`: `2^(e - 52)`,
where `e` is the binary exponent of `a`, at least `-1022` (below `2^-1022` the
values are the subnormal ones, spaced `2^-1074`). -/
def quantum (a : ℚ) : ℚ :=
  (2 : ℚ) ^ (max (Int.log 2 a) (-1022) - 52)

/-- Rounding a magnitude `a >= 0` to the nearest multiple of its spacing. -/
def roundMagnitude (a : ℚ) : ℚ :=
  (roundHalfEven (a / quantum a) : ℚ) * quantum a

/-- The least magnitude that rounds to an infinity: half a spacing above the
largest finite `double`, `2^1024 - 2^971`. -/
def overflowThreshold : ℚ :=
  2 ^ 1024 - 2 ^ 970

/-- The `double` that an exact result `q` is rounded to. -/
def ofRat (q : ℚ) : Double :=
  if overflowThreshold ≤ q then Double.pos_inf
  else if q ≤ -overflowThreshold then Double.neg_inf
  else if 0 ≤ q then Double.finite (roundMagnitude q)
  else Double.finite (-roundMagnitude (-q))

/-- The comparison `a < b` of two `double`s: false when either is NaN. -/
def Double.lt : Double → Double → Bool
  | Double.nan, _ => false
  | _, Double.nan => false
  | Double.finite a, Double.finite b => decide (a < b)
  | Double.finite _, Double.pos_inf => true
  | Double.finite _, Double.neg_inf => false
  | Double.pos_inf, _ => false
  | Double.neg_inf, Double.neg_inf => false
  | Double.neg_inf, _ => true

/-- The comparison `a == b` of two `double`s: false when either is NaN. -/
def Double.eq : Double → Double → Bool
  | Double.nan, _ => false
  | _, Double.nan => false
  | a, b => decide (a = b)

/-- The comparison `a <= b` of two `double`s: false when either is NaN. -/
def Double.le (a b : Double) : Bool :=
  a.lt b || a.eq b

/-- The difference `a - b` of two `double`s. -/
def Double.sub : Double → Double → Double
  | Double.nan, _ => Double.nan
  | _, Double.nan => Double.nan
  | Double.finite a, Double.finite b => ofRat (a - b)
  | Double.finite _, Double.pos_inf => Double.neg_inf
  | Double.finite _, Double.neg_inf => Double.pos_inf
  | Double.pos_inf, Double.pos_inf => Double.nan
  | Double.pos_inf, _ => Double.pos_inf
  | Double.neg_inf, Double.neg_inf => Double.nan
  | Double.neg_inf, _ => Double.neg_inf

/-- The quotient `a / b` of two `double`s. -/
def Double.div : Double → Double → Double
  | Double.nan, _ => Double.nan
  | _, Double.nan => Double.nan
  | Double.finite a, Double.finite b =>
    if b = 0 then
      if a = 0 then Double.nan else if 0 < a then Double.pos_inf else Double.neg_inf
    else ofRat (a / b)
  | Double.finite _, Double.pos_inf => Double.finite 0
  | Double.finite _, Double.neg_inf => Double.finite 0
  | Double.pos_inf, Double.finite b => if 0 ≤ b then Double.pos_inf else Double.neg_inf
  | Double.neg_inf, Double.finite b => if 0 ≤ b then Double.neg_inf else Double.pos_inf
  | Double.pos_inf, _ => Double.nan
  | Double.neg_inf, _ => Double.nan

/-- The value `*std::min_element(first, last)` on the non-empty range `v :: vs`
of `double`s: the scan replaces the current smallest `m` by `x` when `x < m`. -/
def min_element (v : Double) (vs : List Double) : Double :=
  vs.foldl (fun m x => if x.lt m then x else m) v

/-- The value `*std::max_element(first, last)` on the non-empty range `v :: vs`
of `double`s: the scan replaces the current largest `m` by `x` when `m < x`. -/
def max_element (v : Double) (vs : List Double) : Double :=
  vs.foldl (fun m x => if m.lt x then x else m) v

/-- Member function `SlopeR2Product::Normalize` (lines 21-35) on `double`s: the
empty check, the two scans, the `==` check, then the `push_back` loop. -/
def Normalize (series : List Double) : Except Exn (List Double) :=
  match series with
  | [] => Except.error EmptySeriesError
  | v :: vs =>
    let min_val := min_element v vs
    let max_val := max_element v vs
    if min_val.eq max_val then
      Except.error DegenerateSeriesError
    else
      Except.ok ((v :: vs).foldl
        (fun normalized val => normalized ++ [(val.sub min_val).div (max_val.sub min_val)]) [])

end IEEE

/-! ## Basic facts about the loops -/

section Loops

variable {α : Type} [LinearOrderedField α]

theorem foldl_min_le_init (vs : List α) (v : α) :
    vs.foldl (fun m x => if x < m then x else m) v ≤ v := by
  induction vs generalizing v with
  | nil => exact le_refl v
  | cons a t ih =>
    simp only [List.foldl_cons]
    split_ifs with h
    · exact le_trans (ih a) (le_of_lt h)
    · exact ih v

theorem foldl_min_le_mem (vs : List α) (v x : α) (hx : x ∈ vs) :
    vs.foldl (fun m x => if x < m then x else m) v ≤ x := by
  induction vs generalizing v with
  | nil => cases hx
  | cons a t ih =>
    simp only [List.foldl_cons]
    rcases List.mem_cons.mp hx with rfl | hx
    · split_ifs with h
      · exact foldl_min_le_init t x
      · exact le_trans (foldl_min_le_init t v) (not_lt.mp h)
    · exact ih _ hx

theorem foldl_min_mem (vs : List α) (v : α) :
    vs.foldl (fun m x => if x < m then x else m) v ∈ v :: vs := by
  induction vs generalizing v with
  | nil => simp
  | cons a t ih =>
    simp only [List.foldl_cons]
    split_ifs with h
    · exact List.mem_cons_of_mem v (ih a)
    · rcases List.mem_cons.mp (ih v) with h1 | h1
      · rw [h1]; exact List.mem_cons_self v _
      · exact List.mem_cons_of_mem v (List.mem_cons_of_mem a h1)

theorem init_le_foldl_max (vs : List α) (v : α) :
    v ≤ vs.foldl (fun m x => if m < x then x else m) v := by
  induction vs generalizing v with
  | nil => exact le_refl v
  | cons a t ih =>
    simp only [List.foldl_cons]
    split_ifs with h
    · exact le_trans (le_of_lt h) (ih a)
    · exact ih v

theorem mem_le_foldl_max (vs : List α) (v x : α) (hx : x ∈ vs) :
    x ≤ vs.foldl (fun m x => if m < x then x else m) v := by
  induction vs generalizing v with
  | nil => cases hx
  | cons a t ih =>
    simp only [List.foldl_cons]
    rcases List.mem_cons.mp hx with rfl | hx
    · split_ifs with h
      · exact init_le_foldl_max t x
      · exact le_trans (not_lt.mp h) (init_le_foldl_max t v)
    · exact ih _ hx

theorem foldl_max_mem (vs : List α) (v : α) :
    vs.foldl (fun m x => if m < x then x else m) v ∈ v :: vs := by
  induction vs generalizing v with
  | nil => simp
  | cons a t ih =>
    simp only [List.foldl_cons]
    split_ifs with h
    · exact List.mem_cons_of_mem v (ih a)
    · rcases List.mem_cons.mp (ih v) with h1 | h1
      · rw [h1]; exact List.mem_cons_self v _
      · exact List.mem_cons_of_mem v (List.mem_cons_of_mem a h1)

/-- The scan of `std::min_element` returns a lower bound of the range. -/
theorem min_element_le (v : α) (vs : List α) (x : α) (hx : x ∈ v :: vs) :
    min_element v vs ≤ x := by
  rcases List.mem_cons.mp hx with rfl | hx
  · exact foldl_min_le_init vs x
  · exact foldl_min_le_mem vs v x hx

/-- The scan of `std::min_element` returns an element of the range. -/
theorem min_element_mem (v : α) (vs : List α) : min_element v vs ∈ v :: vs :=
  foldl_min_mem vs v

/-- The scan of `std::max_element` returns an upper bound of the range. -/
theorem le_max_element (v : α) (vs : List α) (x : α) (hx : x ∈ v :: vs) :
    x ≤ max_element v vs := by
  rcases List.mem_cons.mp hx with rfl | hx
  · exact init_le_foldl_max vs x
  · exact mem_le_foldl_max vs v x hx

/-- The scan of `std::max_element` returns an element of the range. -/
theorem max_element_mem (v : α) (vs : List α) : max_element v vs ∈ v :: vs :=
  foldl_max_mem vs v

theorem min_element_le_max_element (v : α) (vs : List α) :
    min_element v vs ≤ max_element v vs :=
  le_trans (min_element_le v vs v (List.mem_cons_self v vs))
    (le_max_element v vs v (List.mem_cons_self v vs))

/-- The `push_back` loop of `Normalize` builds the elementwise image. -/
theorem foldl_push_back {γ β : Type} (f : γ → β) (l : List γ) (init : List β) :
    l.foldl (fun normalized val => normalized ++ [f val]) init = init ++ l.map f := by
  induction l generalizing init with
  | nil => simp
  | cons a t ih => simp [ih]

/-- An accumulation loop `acc += g value` computes a sum. -/
theorem foldl_acc {β : Type} (g : β → α) (l : List β) (init : α) :
    l.foldl (fun acc value => acc + g value) init = init + (l.map g).sum := by
  induction l generalizing init with
  | nil => simp
  | cons a t ih => simp [ih, add_assoc]

theorem iterate_succ_eq (n : Nat) (a : α) :
    List.iterate (fun value => value + 1) a n = (List.range n).map (fun (i : Nat) => a + (i : α)) := by
  induction n generalizing a with
  | zero => simp
  | succ k ih =>
    rw [List.iterate, ih, List.range_succ_eq_map]
    simp only [List.map_cons, List.map_map, Nat.cast_zero, add_zero]
    congr 1
    apply List.map_congr_left
    intro i _
    show a + 1 + (i : α) = a + ((i + 1 : Nat) : α)
    push_cast
    ring

/-- The series `CreateXseries size` is `1, 2, ..., size`. -/
theorem CreateXseries_eq (n : Nat) :
    (CreateXseries n : List α) = (List.range n).map (fun (i : Nat) => (i : α) + 1) := by
  unfold CreateXseries
  rw [iterate_succ_eq]
  apply List.map_congr_left
  intro i _
  ring

theorem CreateXseries_length (n : Nat) : (CreateXseries n : List α).length = n := by
  simp [CreateXseries]

end Loops

/-! ## The member functions in closed form -/

section ClosedForm

variable {α : Type} [LinearOrderedField α]

theorem bind_error {ε β γ : Type} (e : ε) (f : β → Except ε γ) :
    (Except.error e >>= f) = Except.error e := rfl

theorem bind_ok {ε β γ : Type} (a : β) (f : β → Except ε γ) :
    (Except.ok a >>= f) = f a := rfl

theorem Normalize_nil : Normalize ([] : List α) = Except.error EmptySeriesError := rfl

theorem Normalize_cons (v : α) (vs : List α) :
    Normalize (v :: vs) =
      if min_element v vs = max_element v vs then Except.error DegenerateSeriesError
      else Except.ok ((v :: vs).map
        (fun val => (val - min_element v vs) / (max_element v vs - min_element v vs))) := by
  simp only [Normalize]
  split_ifs with h
  · rfl
  · rw [foldl_push_back]; rfl

theorem CalcMean_nil : CalcMean ([] : List α) = Except.error EmptySeriesError := rfl

theorem CalcMean_eq (series : List α) (h : series ≠ []) :
    CalcMean series = Except.ok (series.sum / (series.length : α)) := by
  unfold CalcMean
  rw [if_neg (by simpa using h), foldl_acc (fun v => v) series 0]
  simp

theorem CalcVariance_eq (series : List α) (mean : α) :
    CalcVariance series mean =
      (series.map (fun value => (value - mean) * (value - mean))).sum / (series.length : α) := by
  unfold CalcVariance
  rw [foldl_acc (fun value => (value - mean) * (value - mean)) series 0]
  simp

theorem CalcCovariance_eq (x y : List α) (x_mean y_mean : α) (h : x.length = y.length) :
    CalcCovariance x x_mean y y_mean =
      Except.ok (((List.zip x y).map (fun xy => (xy.1 - x_mean) * (xy.2 - y_mean))).sum
        / (x.length : α)) := by
  unfold CalcCovariance
  rw [if_neg (by simpa using h),
    foldl_acc (fun xy : α × α => (xy.1 - x_mean) * (xy.2 - y_mean)) (List.zip x y) 0]
  simp

theorem all_eq_of_min_eq_max (v : α) (vs : List α) (h : min_element v vs = max_element v vs) :
    ∀ x ∈ v :: vs, x = min_element v vs := by
  intro x hx
  exact le_antisymm (h ▸ le_max_element v vs x hx) (min_element_le v vs x hx)

theorem min_eq_max_of_all_eq (v : α) (vs : List α) (h : ∀ x ∈ v :: vs, ∀ y ∈ v :: vs, x = y) :
    min_element v vs = max_element v vs :=
  h _ (min_element_mem v vs) _ (max_element_mem v vs)

theorem Normalize_ok_inv (s out : List α) (h : Normalize s = Except.ok out) :
    ∃ v vs, s = v :: vs ∧ min_element v vs < max_element v vs ∧
      out = s.map (fun val => (val - min_element v vs) / (max_element v vs - min_element v vs)) := by
  cases s with
  | nil => simp [Normalize_nil] at h
  | cons v vs =>
    rw [Normalize_cons] at h
    split_ifs at h with hmm
    refine ⟨v, vs, rfl, lt_of_le_of_ne (min_element_le_max_element v vs) hmm, ?_⟩
    injection h with h
    exact h.symm

end ClosedForm

/-! ## Error paths of `CalcSlopeR2Product` -/

section Errors

variable {α : Type} [LinearOrderedField α]

/-- An exception thrown by the first `Normalize` call leaves `CalcSlopeR2Product` unchanged. -/
theorem CalcSlopeR2Product_of_Normalize_error (sqrt : α → α) (self : SlopeR2Product α) (e : Exn)
    (h : Normalize self.close_prices = Except.error e) :
    self.CalcSlopeR2Product sqrt = Except.error e := by
  unfold SlopeR2Product.CalcSlopeR2Product SlopeR2Product.CalcLocals
  rw [h]
  rfl

theorem Normalize_constant (v : α) (vs : List α) (h : ∀ x ∈ v :: vs, ∀ y ∈ v :: vs, x = y) :
    Normalize (v :: vs) = Except.error DegenerateSeriesError := by
  rw [Normalize_cons, if_pos (min_eq_max_of_all_eq v vs h)]

theorem Normalize_singleton (v : α) : Normalize [v] = Except.error DegenerateSeriesError :=
  Normalize_constant v [] (by simp)

end Errors

/-! ## Claims -/

section Claims

variable {α : Type} [LinearOrderedField α]

/-- C2: `CalcSlopeR2Product` on an empty price series throws the empty-series
exception, a `std::invalid_argument` whose message is "Input series cannot be
empty", and so returns no value. -/
theorem C2_empty_series (sqrt : α → α) :
    (SlopeR2Product.mk ([] : List α)).CalcSlopeR2Product sqrt = Except.error EmptySeriesError ∧
      EmptySeriesError.cls = ExnClass.invalid_argument ∧
      EmptySeriesError.what = "Input series cannot be empty" ∧
      ∀ r : α, (SlopeR2Product.mk ([] : List α)).CalcSlopeR2Product sqrt ≠ Except.ok r := by
  have h := CalcSlopeR2Product_of_Normalize_error sqrt (SlopeR2Product.mk ([] : List α))
    EmptySeriesError Normalize_nil
  refine ⟨h, rfl, rfl, ?_⟩
  intro r hr
  rw [h] at hr
  cases hr

/-- C4: on every one-element price series `CalcSlopeR2Product` fails, and the
exception is the degenerate-series one, which differs from the empty-series,
size-mismatch and zero-variance exceptions. -/
theorem C4_single_element (sqrt : α → α) (v : α) :
    (SlopeR2Product.mk [v]).CalcSlopeR2Product sqrt = Except.error DegenerateSeriesError ∧
      DegenerateSeriesError ≠ EmptySeriesError ∧
      DegenerateSeriesError ≠ SizeMismatchError ∧
      DegenerateSeriesError ≠ ZeroVarianceError :=
  ⟨CalcSlopeR2Product_of_Normalize_error sqrt _ _ (Normalize_singleton v),
    by decide, by decide, by decide⟩

/-- In exact arithmetic, `Normalize` throws the empty-series exception exactly on the series of
length 0, throws the degenerate-series exception exactly on the non-empty
series whose minimum equals the maximum (equivalently, whose values are all
equal; every one-element series is such), throws nothing else, and returns a
value on every other series. -/
theorem Normalize_failure_exact (s : List α) :
    (Normalize s = Except.error EmptySeriesError ↔ s.length = 0) ∧
      (Normalize s = Except.error DegenerateSeriesError ↔
        ∃ v vs, s = v :: vs ∧ min_element v vs = max_element v vs) ∧
      ((∃ v vs, s = v :: vs ∧ min_element v vs = max_element v vs) ↔
        s ≠ [] ∧ ∀ x ∈ s, ∀ y ∈ s, x = y) ∧
      (∀ v : α, Normalize [v] = Except.error DegenerateSeriesError) ∧
      (∀ e, Normalize s = Except.error e → e = EmptySeriesError ∨ e = DegenerateSeriesError) ∧
      ((∃ out, Normalize s = Except.ok out) ↔
        ¬ (s.length = 0 ∨ (s ≠ [] ∧ ∀ x ∈ s, ∀ y ∈ s, x = y))) := by
  have hED : EmptySeriesError ≠ DegenerateSeriesError := by decide
  cases s with
  | nil =>
    refine ⟨by simp [Normalize_nil], ?_, by simp, Normalize_singleton, ?_, ?_⟩
    · simp [Normalize_nil, hED]
    · intro e h
      rw [Normalize_nil] at h
      injection h with h
      exact Or.inl h.symm
    · simp [Normalize_nil]
  | cons v vs =>
    have hiff : min_element v vs = max_element v vs ↔
        ∀ x ∈ v :: vs, ∀ y ∈ v :: vs, x = y := by
      constructor
      · intro h x hx y hy
        rw [all_eq_of_min_eq_max v vs h x hx, all_eq_of_min_eq_max v vs h y hy]
      · exact min_eq_max_of_all_eq v vs
    by_cases hmm : min_element v vs = max_element v vs
    · have hN : Normalize (v :: vs) = Except.error DegenerateSeriesError := by
        rw [Normalize_cons, if_pos hmm]
      refine ⟨?_, ?_, ?_, Normalize_singleton, ?_, ?_⟩
      · rw [hN]
        simp [hED.symm]
      · rw [hN]
        simp only [true_iff]
        exact ⟨v, vs, rfl, hmm⟩
      · constructor
        · intro _
          exact ⟨List.cons_ne_nil v vs, hiff.mp hmm⟩
        · intro _
          exact ⟨v, vs, rfl, hmm⟩
      · intro e h
        rw [hN] at h
        injection h with h
        exact Or.inr h.symm
      · rw [hN]
        constructor
        · rintro ⟨out, h⟩
          cases h
        · intro h
          exact absurd (Or.inr ⟨List.cons_ne_nil v vs, hiff.mp hmm⟩) h
    · have hN : Normalize (v :: vs) = Except.ok ((v :: vs).map
          (fun val => (val - min_element v vs) / (max_element v vs - min_element v vs))) := by
        rw [Normalize_cons, if_neg hmm]
      refine ⟨?_, ?_, ?_, Normalize_singleton, ?_, ?_⟩
      · rw [hN]
        simp
      · rw [hN]
        constructor
        · intro h
          cases h
        · rintro ⟨v1, vs1, h1, h2⟩
          injection h1 with h3 h4
          subst h3
          subst h4
          exact absurd h2 hmm
      · constructor
        · rintro ⟨v1, vs1, h1, h2⟩
          injection h1 with h3 h4
          subst h3
          subst h4
          exact absurd h2 hmm
        · rintro ⟨_, h⟩
          exact absurd (hiff.mpr h) hmm
      · intro e h
        rw [hN] at h
        cases h
      · constructor
        · intro _ h
          rcases h with h | h
          · simp at h
          · exact hmm (hiff.mpr h.2)
        · intro _
          exact ⟨_, hN⟩

end Claims

/-! ## The successful path of `CalcSlopeR2Product` -/

section Success

variable {α : Type} [LinearOrderedField α]

/-- Reading off a successful run of lines 71-82: every call returned and every
local has the value the source assigns to it. -/
theorem CalcLocals_ok_inv (sqrt : α → α) (self : SlopeR2Product α) (l : Locals α)
    (h : self.CalcLocals sqrt = Except.ok l) :
    Normalize self.close_prices = Except.ok l.normalized_prices ∧
      Normalize (CreateXseries l.normalized_prices.length) = Except.ok l.normalized_x ∧
      CalcMean l.normalized_x = Except.ok l.x_mean ∧
      CalcMean l.normalized_prices = Except.ok l.y_mean ∧
      l.variance_x = CalcVariance l.normalized_x l.x_mean ∧
      l.variance_y = CalcVariance l.normalized_prices l.y_mean ∧
      l.variance_x ≠ 0 ∧ l.variance_y ≠ 0 ∧
      CalcCovariance l.normalized_x l.x_mean l.normalized_prices l.y_mean
        = Except.ok l.covariance ∧
      l.slope = l.covariance / l.variance_x ∧
      l.correlation = l.covariance / (sqrt l.variance_x * sqrt l.variance_y) := by
  unfold SlopeR2Product.CalcLocals at h
  cases h1 : Normalize self.close_prices with
  | error e => rw [h1] at h; cases h
  | ok ny =>
    rw [h1] at h
    simp only [bind_ok] at h
    cases h2 : Normalize (CreateXseries ny.length : List α) with
    | error e => rw [h2] at h; cases h
    | ok nx =>
      rw [h2] at h
      simp only [bind_ok] at h
      cases h3 : CalcMean nx with
      | error e => rw [h3] at h; cases h
      | ok xm =>
        rw [h3] at h
        simp only [bind_ok] at h
        cases h4 : CalcMean ny with
        | error e => rw [h4] at h; cases h
        | ok ym =>
          rw [h4] at h
          simp only [bind_ok] at h
          split_ifs at h with hz
          cases h5 : CalcCovariance nx xm ny ym with
          | error e => rw [h5] at h; cases h
          | ok cov =>
            rw [h5] at h
            simp only [bind_ok] at h
            injection h with h
            subst h
            push_neg at hz
            exact ⟨rfl, h2, h3, h4, rfl, rfl, hz.1, hz.2, h5, rfl, rfl⟩

end Success

/-! ## Properties of a normalized series -/

section Normalized

variable {α : Type} [LinearOrderedField α]

theorem Normalize_ok_length (s out : List α) (h : Normalize s = Except.ok out) :
    out.length = s.length := by
  obtain ⟨v, vs, _, _, rfl⟩ := Normalize_ok_inv s out h
  simp

theorem Normalize_ok_zero_mem (s out : List α) (h : Normalize s = Except.ok out) :
    (0 : α) ∈ out := by
  obtain ⟨v, vs, hs, _, rfl⟩ := Normalize_ok_inv s out h
  refine List.mem_map.mpr ⟨min_element v vs, hs ▸ min_element_mem v vs, ?_⟩
  simp

theorem Normalize_ok_one_mem (s out : List α) (h : Normalize s = Except.ok out) :
    (1 : α) ∈ out := by
  obtain ⟨v, vs, hs, hlt, rfl⟩ := Normalize_ok_inv s out h
  refine List.mem_map.mpr ⟨max_element v vs, hs ▸ max_element_mem v vs, ?_⟩
  exact div_self (sub_pos.mpr hlt).ne.symm

theorem Normalize_ok_bounds (s out : List α) (h : Normalize s = Except.ok out) :
    ∀ y ∈ out, 0 ≤ y ∧ y ≤ 1 := by
  obtain ⟨v, vs, hs, hlt, rfl⟩ := Normalize_ok_inv s out h
  intro y hy
  obtain ⟨x, hx, rfl⟩ := List.mem_map.mp hy
  rw [hs] at hx
  have hd : 0 < max_element v vs - min_element v vs := sub_pos.mpr hlt
  constructor
  · exact div_nonneg (sub_nonneg.mpr (min_element_le v vs x hx)) hd.le
  · rw [div_le_one hd]
    exact sub_le_sub_right (le_max_element v vs x hx) _

theorem Normalize_ok_ne_nil (s out : List α) (h : Normalize s = Except.ok out) : out ≠ [] :=
  List.ne_nil_of_mem (Normalize_ok_zero_mem s out h)

/-- A series with two distinct values is normalized. -/
theorem Normalize_ok_of_ne (s : List α) (a b : α) (ha : a ∈ s) (hb : b ∈ s) (hab : a ≠ b) :
    ∃ out, Normalize s = Except.ok out := by
  cases s with
  | nil => cases ha
  | cons v vs =>
    rw [Normalize_cons]
    by_cases hmm : min_element v vs = max_element v vs
    · exact absurd ((all_eq_of_min_eq_max v vs hmm a ha).trans
        (all_eq_of_min_eq_max v vs hmm b hb).symm) hab
    · rw [if_neg hmm]
      exact ⟨_, rfl⟩

/-- A normalized series has at least two elements. -/
theorem Normalize_ok_two_le (s out : List α) (h : Normalize s = Except.ok out) :
    2 ≤ s.length := by
  obtain ⟨v, vs, hs, hlt, _⟩ := Normalize_ok_inv s out h
  subst hs
  cases vs with
  | nil => simp [min_element, max_element] at hlt
  | cons w ws => simp

theorem CreateXseries_Normalize_ok (n : Nat) (hn : 2 ≤ n) :
    ∃ nx, Normalize (CreateXseries n : List α) = Except.ok nx := by
  apply Normalize_ok_of_ne (CreateXseries n) (1 : α) (2 : α)
  · rw [CreateXseries_eq]
    exact List.mem_map.mpr ⟨0, List.mem_range.mpr (by omega), by simp⟩
  · rw [CreateXseries_eq]
    exact List.mem_map.mpr ⟨1, List.mem_range.mpr (by omega), by norm_num⟩
  · norm_num

/-- The sum of squared deviations of a series with two distinct values is
positive, whatever the reference value. -/
theorem sum_sq_dev_pos (l : List α) (m a b : α) (ha : a ∈ l) (hb : b ∈ l) (hab : a ≠ b) :
    0 < (l.map (fun value => (value - m) * (value - m))).sum := by
  have hnn : ∀ t ∈ l.map (fun value => (value - m) * (value - m)), 0 ≤ t := by
    intro t ht
    obtain ⟨x, _, rfl⟩ := List.mem_map.mp ht
    exact mul_self_nonneg _
  have key : ∀ c ∈ l, c ≠ m → 0 < (l.map (fun value => (value - m) * (value - m))).sum := by
    intro c hc hcm
    have h1 : (c - m) * (c - m) ∈ l.map (fun value => (value - m) * (value - m)) :=
      List.mem_map.mpr ⟨c, hc, rfl⟩
    exact lt_of_lt_of_le (mul_self_pos.mpr (sub_ne_zero.mpr hcm)) (List.single_le_sum hnn _ h1)
  by_cases ham : a = m
  · exact key b hb (fun hbm => hab (ham.trans hbm.symm))
  · exact key a ha ham

theorem CalcVariance_pos (l : List α) (m a b : α) (ha : a ∈ l) (hb : b ∈ l) (hab : a ≠ b) :
    0 < CalcVariance l m := by
  rw [CalcVariance_eq]
  apply div_pos (sum_sq_dev_pos l m a b ha hb hab)
  exact Nat.cast_pos.mpr (List.length_pos_of_mem ha)

theorem CalcVariance_Normalize_pos (s out : List α) (m : α) (h : Normalize s = Except.ok out) :
    0 < CalcVariance out m :=
  CalcVariance_pos out m 0 1 (Normalize_ok_zero_mem s out h) (Normalize_ok_one_mem s out h)
    zero_ne_one

end Normalized

/-! ## The code computes the quantities of the specification -/

section Refinement

variable {α : Type} [LinearOrderedField α]

theorem IndexSeries_eq (n : Nat) : (IndexSeries n : List α) = CreateXseries n :=
  (CreateXseries_eq n).symm

theorem CalcMean_eq_Mean (s : List α) (h : s ≠ []) : CalcMean s = Except.ok (Mean s) :=
  CalcMean_eq s h

theorem CalcVariance_eq_PopulationVariance (s : List α) :
    CalcVariance s (Mean s) = PopulationVariance s := by
  rw [CalcVariance_eq]
  unfold PopulationVariance
  congr 2
  apply List.map_congr_left
  intro v _
  ring

theorem CalcCovariance_eq_PopulationCovariance (x y : List α) (h : x.length = y.length) :
    CalcCovariance x (Mean x) y (Mean y) = Except.ok (PopulationCovariance x y) := by
  rw [CalcCovariance_eq x y _ _ h]
  unfold PopulationCovariance
  rw [← List.map_uncurry_zip_eq_zipWith]
  rfl

/-- The run of lines 71-82 on a price series that normalizes: every later call
returns, neither variance is zero, and the locals are the quantities of the
specification. -/
theorem CalcLocals_of_Normalize_ok (sqrt : α → α) (prices ny : List α)
    (h : Normalize prices = Except.ok ny) :
    ∃ nx, Normalize (CreateXseries prices.length : List α) = Except.ok nx ∧
      nx.length = ny.length ∧
      0 < PopulationVariance nx ∧ 0 < PopulationVariance ny ∧
      (SlopeR2Product.mk prices).CalcLocals sqrt = Except.ok
        { normalized_prices := ny
          normalized_x := nx
          x_mean := Mean nx
          y_mean := Mean ny
          variance_x := PopulationVariance nx
          variance_y := PopulationVariance ny
          covariance := PopulationCovariance nx ny
          slope := Slope nx ny
          correlation := Correlation sqrt nx ny } := by
  have hlen := Normalize_ok_length prices ny h
  obtain ⟨nx, hnx⟩ := CreateXseries_Normalize_ok (α := α) prices.length
    (Normalize_ok_two_le prices ny h)
  have hxlen : nx.length = ny.length := by
    rw [Normalize_ok_length _ nx hnx, CreateXseries_length, hlen]
  have hvx : 0 < PopulationVariance nx := by
    rw [← CalcVariance_eq_PopulationVariance]
    exact CalcVariance_Normalize_pos _ nx _ hnx
  have hvy : 0 < PopulationVariance ny := by
    rw [← CalcVariance_eq_PopulationVariance]
    exact CalcVariance_Normalize_pos _ ny _ h
  refine ⟨nx, hnx, hxlen, hvx, hvy, ?_⟩
  unfold SlopeR2Product.CalcLocals
  simp only [h, bind_ok, hlen, hnx, CalcMean_eq_Mean nx (Normalize_ok_ne_nil _ nx hnx),
    CalcMean_eq_Mean ny (Normalize_ok_ne_nil _ ny h), CalcVariance_eq_PopulationVariance,
    CalcCovariance_eq_PopulationCovariance nx ny hxlen]
  rw [if_neg (by
    push_neg
    exact ⟨hvx.ne.symm, hvy.ne.symm⟩)]
  rfl

/-- The value returned on a price series that normalizes. -/
theorem CalcSlopeR2Product_of_Normalize_ok (sqrt : α → α) (prices ny : List α)
    (h : Normalize prices = Except.ok ny) :
    ∃ nx, Normalize (CreateXseries prices.length : List α) = Except.ok nx ∧
      nx.length = ny.length ∧
      0 < PopulationVariance nx ∧ 0 < PopulationVariance ny ∧
      (SlopeR2Product.mk prices).CalcSlopeR2Product sqrt = Except.ok
        (Slope nx ny * (Correlation sqrt nx ny * Correlation sqrt nx ny)) := by
  obtain ⟨nx, h1, h2, h3, h4, h5⟩ := CalcLocals_of_Normalize_ok sqrt prices ny h
  refine ⟨nx, h1, h2, h3, h4, ?_⟩
  unfold SlopeR2Product.CalcSlopeR2Product
  rw [h5]
  rfl

/-- A returned value comes from a price series that normalizes. -/
theorem Normalize_ok_of_CalcSlopeR2Product_ok (sqrt : α → α) (prices : List α) (r : α)
    (h : (SlopeR2Product.mk prices).CalcSlopeR2Product sqrt = Except.ok r) :
    ∃ ny, Normalize prices = Except.ok ny := by
  cases hN : Normalize prices with
  | error e =>
    rw [CalcSlopeR2Product_of_Normalize_error sqrt (SlopeR2Product.mk prices) e hN] at h
    cases h
  | ok ny => exact ⟨ny, rfl⟩

end Refinement

/-! ## Two-point series and the square root -/

section TwoPoint

variable {α : Type} [LinearOrderedField α]

theorem Normalize_pair_lt (a b : α) (hab : a < b) :
    Normalize [a, b] = Except.ok [0, 1] := by
  have hmin : min_element a [b] = a := by simp [min_element, not_lt.mpr hab.le]
  have hmax : max_element a [b] = b := by simp [max_element, hab]
  rw [Normalize_cons, hmin, hmax, if_neg hab.ne]
  simp [div_self (sub_pos.mpr hab).ne.symm]

theorem Normalize_pair_gt (a b : α) (hab : b < a) :
    Normalize [a, b] = Except.ok [1, 0] := by
  have hmin : min_element a [b] = b := by simp [min_element, hab]
  have hmax : max_element a [b] = a := by simp [max_element, not_lt.mpr hab.le]
  rw [Normalize_cons, hmin, hmax, if_neg hab.ne]
  simp [div_self (sub_pos.mpr hab).ne.symm]

theorem CreateXseries_two : (CreateXseries 2 : List α) = [1, 2] := by
  simp [CreateXseries, List.iterate]
  norm_num

theorem Normalize_CreateXseries_two :
    Normalize (CreateXseries 2 : List α) = Except.ok [0, 1] := by
  rw [CreateXseries_two]
  exact Normalize_pair_lt 1 2 (by norm_num)

theorem PopulationVariance_nonneg (s : List α) : 0 ≤ PopulationVariance s := by
  unfold PopulationVariance
  apply div_nonneg _ (Nat.cast_nonneg _)
  apply List.sum_nonneg
  intro t ht
  obtain ⟨x, _, rfl⟩ := List.mem_map.mp ht
  exact sq_nonneg _

/-- With the exact square root, the squared correlation is
`cov^2 / (varX * varY)`. -/
theorem Correlation_mul_self (x y : List ℝ) :
    Correlation Real.sqrt x y * Correlation Real.sqrt x y
      = PopulationCovariance x y ^ 2 / (PopulationVariance x * PopulationVariance y) := by
  unfold Correlation
  rw [div_mul_div_comm]
  congr 1
  · ring
  · rw [mul_mul_mul_comm, Real.mul_self_sqrt (PopulationVariance_nonneg x),
      Real.mul_self_sqrt (PopulationVariance_nonneg y)]

theorem stats_increasing_pair :
    Slope ([0, 1] : List α) [0, 1] = 1 ∧ PopulationCovariance ([0, 1] : List α) [0, 1] = 1 / 4 ∧
      PopulationVariance ([0, 1] : List α) = 1 / 4 := by
  refine ⟨?_, ?_, ?_⟩ <;>
    norm_num [Slope, PopulationCovariance, PopulationVariance, Mean]

theorem stats_decreasing_pair :
    Slope ([0, 1] : List α) [1, 0] = -1 ∧
      PopulationCovariance ([0, 1] : List α) [1, 0] = -(1 / 4) ∧
      PopulationVariance ([1, 0] : List α) = 1 / 4 := by
  refine ⟨?_, ?_, ?_⟩ <;>
    norm_num [Slope, PopulationCovariance, PopulationVariance, Mean]

/-- The locals of `CalcSlopeR2Product` on a price series whose normalized form
has two points. -/
theorem CalcLocals_two_point (sqrt : α → α) (prices : List α) (c d : α)
    (h : Normalize prices = Except.ok [c, d]) :
    (SlopeR2Product.mk prices).CalcLocals sqrt = Except.ok
      { normalized_prices := [c, d]
        normalized_x := [0, 1]
        x_mean := Mean [0, 1]
        y_mean := Mean [c, d]
        variance_x := PopulationVariance [0, 1]
        variance_y := PopulationVariance [c, d]
        covariance := PopulationCovariance [0, 1] [c, d]
        slope := Slope [0, 1] [c, d]
        correlation := Correlation sqrt [0, 1] [c, d] } := by
  obtain ⟨nx, h1, _, _, _, h5⟩ := CalcLocals_of_Normalize_ok sqrt prices [c, d] h
  have hlen : prices.length = 2 := (Normalize_ok_length prices _ h).symm
  rw [hlen, Normalize_CreateXseries_two] at h1
  injection h1 with h1
  subst h1
  exact h5

theorem CalcSlopeR2Product_increasing_pair (a b : ℝ) (hab : a < b) :
    (SlopeR2Product.mk [a, b]).CalcSlopeR2Product Real.sqrt = Except.ok 1 := by
  unfold SlopeR2Product.CalcSlopeR2Product
  rw [CalcLocals_two_point Real.sqrt [a, b] 0 1 (Normalize_pair_lt a b hab)]
  simp only [bind_ok, pure, Except.pure]
  rw [Correlation_mul_self, stats_increasing_pair.1, stats_increasing_pair.2.1,
    stats_increasing_pair.2.2]
  norm_num

theorem CalcSlopeR2Product_decreasing_pair (a b : ℝ) (hab : b < a) :
    (SlopeR2Product.mk [a, b]).CalcSlopeR2Product Real.sqrt = Except.ok (-1) := by
  unfold SlopeR2Product.CalcSlopeR2Product
  rw [CalcLocals_two_point Real.sqrt [a, b] 1 0 (Normalize_pair_gt a b hab)]
  simp only [bind_ok, pure, Except.pure]
  rw [Correlation_mul_self, stats_decreasing_pair.1, stats_decreasing_pair.2.1,
    stats_decreasing_pair.2.2, stats_increasing_pair.2.2]
  norm_num

end TwoPoint

/-! ## Affine changes of the price scale -/

section Affine

variable {α : Type} [LinearOrderedField α]

theorem foldl_min_map (f : α → α) (hf : StrictMono f) (vs : List α) (v : α) :
    (vs.map f).foldl (fun m x => if x < m then x else m) (f v)
      = f (vs.foldl (fun m x => if x < m then x else m) v) := by
  induction vs generalizing v with
  | nil => rfl
  | cons w ws ih =>
    simp only [List.map_cons, List.foldl_cons, hf.lt_iff_lt]
    split_ifs
    · exact ih w
    · exact ih v

theorem foldl_max_map (f : α → α) (hf : StrictMono f) (vs : List α) (v : α) :
    (vs.map f).foldl (fun m x => if m < x then x else m) (f v)
      = f (vs.foldl (fun m x => if m < x then x else m) v) := by
  induction vs generalizing v with
  | nil => rfl
  | cons w ws ih =>
    simp only [List.map_cons, List.foldl_cons, hf.lt_iff_lt]
    split_ifs
    · exact ih w
    · exact ih v

theorem strictMono_affine (a b : α) (ha : 0 < a) : StrictMono (fun v : α => a * v + b) := by
  intro x y hxy
  exact add_lt_add_right (mul_lt_mul_of_pos_left hxy ha) b

/-- A change of scale `v ↦ a * v + b` with `a > 0` does not change the outcome
of `Normalize`. -/
theorem Normalize_affine (p : List α) (a b : α) (ha : 0 < a) :
    Normalize (p.map (fun v => a * v + b)) = Normalize p := by
  cases p with
  | nil => rfl
  | cons v vs =>
    have hf := strictMono_affine a b ha
    have hmin : min_element (a * v + b) (vs.map (fun v => a * v + b))
        = a * min_element v vs + b := foldl_min_map _ hf vs v
    have hmax : max_element (a * v + b) (vs.map (fun v => a * v + b))
        = a * max_element v vs + b := foldl_max_map _ hf vs v
    rw [List.map_cons, Normalize_cons, Normalize_cons, hmin, hmax]
    by_cases hmm : min_element v vs = max_element v vs
    · rw [if_pos hmm, if_pos (by rw [hmm])]
    · rw [if_neg hmm, if_neg (fun h => hmm (hf.injective h))]
      congr 1
      have hc : (a * v + b) :: List.map (fun v => a * v + b) vs
          = List.map (fun v => a * v + b) (v :: vs) := rfl
      rw [hc, List.map_map]
      apply List.map_congr_left
      intro x _
      simp only [Function.comp]
      have e1 : a * x + b - (a * min_element v vs + b) = a * (x - min_element v vs) := by ring
      have e2 : a * max_element v vs + b - (a * min_element v vs + b)
          = a * (max_element v vs - min_element v vs) := by ring
      rw [e1, e2, mul_div_mul_left _ _ ha.ne.symm]

/-- The outcome of `CalcSlopeR2Product` is determined by the outcome of its
first statement, `Normalize(close_prices)`. -/
theorem CalcSlopeR2Product_congr (sqrt : α → α) (p q : List α)
    (h : Normalize p = Normalize q) :
    (SlopeR2Product.mk p).CalcSlopeR2Product sqrt
      = (SlopeR2Product.mk q).CalcSlopeR2Product sqrt := by
  unfold SlopeR2Product.CalcSlopeR2Product SlopeR2Product.CalcLocals
  simp only [h]

end Affine

/-! ## Claims on the returned value -/

section ValueClaims

variable {α : Type} [LinearOrderedField α]

/-- C1: whenever `CalcSlopeR2Product` returns a value `r`, both normalizations
succeeded, `normY = Normalize(prices)`, `normX = Normalize(1, 2, ..., n)`, and
`r = slope * correlation^2`, where `slope = cov / varX` and
`correlation = cov / (sqrt(varX) * sqrt(varY))` are built from the arithmetic
means, population variances and population covariance of `normX` and `normY`. -/
theorem C1_returns_slope_times_r2 (sqrt : α → α) (prices : List α) (r : α)
    (h : (SlopeR2Product.mk prices).CalcSlopeR2Product sqrt = Except.ok r) :
    ∃ normY normX : List α,
      Normalize prices = Except.ok normY ∧
      Normalize (IndexSeries prices.length : List α) = Except.ok normX ∧
      r = Slope normX normY * Correlation sqrt normX normY ^ 2 ∧
      Slope normX normY = PopulationCovariance normX normY / PopulationVariance normX ∧
      Correlation sqrt normX normY = PopulationCovariance normX normY /
        (sqrt (PopulationVariance normX) * sqrt (PopulationVariance normY)) := by
  obtain ⟨ny, hny⟩ := Normalize_ok_of_CalcSlopeR2Product_ok sqrt prices r h
  obtain ⟨nx, hnx, _, _, _, hr⟩ := CalcSlopeR2Product_of_Normalize_ok sqrt prices ny hny
  rw [h] at hr
  injection hr with hr
  refine ⟨ny, nx, hny, ?_, ?_, rfl, rfl⟩
  · rw [IndexSeries_eq]
    exact hnx
  · rw [hr, sq]

/-- Witness of C1 at the price series `[1.0, 2.0]`, on which the code returns `1`. -/
theorem C1_returns_slope_times_r2_witness :
    (SlopeR2Product.mk ([1, 2] : List ℝ)).CalcSlopeR2Product Real.sqrt = Except.ok 1 ∧
    ∃ normY normX : List ℝ,
      Normalize ([1, 2] : List ℝ) = Except.ok normY ∧
      Normalize (IndexSeries ([1, 2] : List ℝ).length : List ℝ) = Except.ok normX ∧
      (1 : ℝ) = Slope normX normY * Correlation Real.sqrt normX normY ^ 2 ∧
      Slope normX normY = PopulationCovariance normX normY / PopulationVariance normX ∧
      Correlation Real.sqrt normX normY = PopulationCovariance normX normY /
        (Real.sqrt (PopulationVariance normX) * Real.sqrt (PopulationVariance normY)) :=
  ⟨CalcSlopeR2Product_increasing_pair 1 2 (by norm_num),
    C1_returns_slope_times_r2 Real.sqrt [1, 2] 1
      (CalcSlopeR2Product_increasing_pair 1 2 (by norm_num))⟩

/-- C5: for every two-point price series `[a, b]` with `a < b`, in exact
arithmetic, the normalized prices are `[0, 1]`, the normalized index series is
`[0, 1]`, the slope is `1`, the squared correlation is `1`, and
`CalcSlopeR2Product` returns exactly `1`. -/
theorem C5_two_point_increasing (a b : ℝ) (hab : a < b) :
    Normalize [a, b] = Except.ok [0, 1] ∧
    Normalize (CreateXseries 2 : List ℝ) = Except.ok [0, 1] ∧
    (∃ l : Locals ℝ, (SlopeR2Product.mk [a, b]).CalcLocals Real.sqrt = Except.ok l ∧
      l.normalized_prices = [0, 1] ∧ l.normalized_x = [0, 1] ∧
      l.slope = 1 ∧ l.correlation ^ 2 = 1) ∧
    (SlopeR2Product.mk [a, b]).CalcSlopeR2Product Real.sqrt = Except.ok 1 := by
  refine ⟨Normalize_pair_lt a b hab, Normalize_CreateXseries_two,
    ⟨_, CalcLocals_two_point Real.sqrt [a, b] 0 1 (Normalize_pair_lt a b hab),
      rfl, rfl, stats_increasing_pair.1, ?_⟩,
    CalcSlopeR2Product_increasing_pair a b hab⟩
  show Correlation Real.sqrt [0, 1] [0, 1] ^ 2 = 1
  rw [sq, Correlation_mul_self, stats_increasing_pair.2.1, stats_increasing_pair.2.2]
  norm_num

/-- Witness of C5 at the price series `[1.0, 2.0]`. -/
theorem C5_two_point_increasing_witness :
    (1 : ℝ) < 2 ∧
    Normalize ([1, 2] : List ℝ) = Except.ok [0, 1] ∧
    Normalize (CreateXseries 2 : List ℝ) = Except.ok [0, 1] ∧
    (∃ l : Locals ℝ, (SlopeR2Product.mk [1, 2]).CalcLocals Real.sqrt = Except.ok l ∧
      l.normalized_prices = [0, 1] ∧ l.normalized_x = [0, 1] ∧
      l.slope = 1 ∧ l.correlation ^ 2 = 1) ∧
    (SlopeR2Product.mk ([1, 2] : List ℝ)).CalcSlopeR2Product Real.sqrt = Except.ok 1 :=
  ⟨by norm_num, C5_two_point_increasing 1 2 (by norm_num)⟩

/-- C6: for every two-point price series `[a, b]` with `a > b`, in exact
arithmetic, the slope is negative, the squared correlation is `1`, and
`CalcSlopeR2Product` returns the slope, which is exactly `-1`. -/
theorem C6_two_point_decreasing (a b : ℝ) (hab : b < a) :
    ∃ l : Locals ℝ, (SlopeR2Product.mk [a, b]).CalcLocals Real.sqrt = Except.ok l ∧
      l.slope < 0 ∧ l.correlation ^ 2 = 1 ∧
      (SlopeR2Product.mk [a, b]).CalcSlopeR2Product Real.sqrt = Except.ok l.slope ∧
      l.slope = -1 := by
  refine ⟨_, CalcLocals_two_point Real.sqrt [a, b] 1 0 (Normalize_pair_gt a b hab), ?_, ?_, ?_, ?_⟩
  · show Slope ([0, 1] : List ℝ) [1, 0] < 0
    rw [stats_decreasing_pair.1]
    norm_num
  · show Correlation Real.sqrt [0, 1] [1, 0] ^ 2 = 1
    rw [sq, Correlation_mul_self, stats_decreasing_pair.2.1, stats_decreasing_pair.2.2,
      stats_increasing_pair.2.2]
    norm_num
  · show _ = Except.ok (Slope ([0, 1] : List ℝ) [1, 0])
    rw [stats_decreasing_pair.1]
    exact CalcSlopeR2Product_decreasing_pair a b hab
  · exact stats_decreasing_pair.1

/-- Witness of C6 at the price series `[2.0, 1.0]`. -/
theorem C6_two_point_decreasing_witness :
    (1 : ℝ) < 2 ∧
    ∃ l : Locals ℝ, (SlopeR2Product.mk [2, 1]).CalcLocals Real.sqrt = Except.ok l ∧
      l.slope < 0 ∧ l.correlation ^ 2 = 1 ∧
      (SlopeR2Product.mk ([2, 1] : List ℝ)).CalcSlopeR2Product Real.sqrt = Except.ok l.slope ∧
      l.slope = -1 :=
  ⟨by norm_num, C6_two_point_decreasing 2 1 (by norm_num)⟩

/-- C8: the outcome does not depend on the absolute price magnitude: for every
price series `p`, every `a > 0` and every `b`, `CalcSlopeR2Product` on the
series `a * p_i + b` has the same outcome, value or exception, as on `p`. -/
theorem C8_scale_invariance (sqrt : α → α) (p : List α) (a b : α) (ha : 0 < a) :
    (SlopeR2Product.mk (p.map (fun v => a * v + b))).CalcSlopeR2Product sqrt
      = (SlopeR2Product.mk p).CalcSlopeR2Product sqrt :=
  CalcSlopeR2Product_congr sqrt _ _ (Normalize_affine p a b ha)

/-- Witness of C8: `[100, 200, 300]` and `[1, 2, 3]` have the same outcome. -/
theorem C8_scale_invariance_witness :
    (0 : ℝ) < 100 ∧
    (SlopeR2Product.mk ([100, 200, 300] : List ℝ)).CalcSlopeR2Product Real.sqrt
      = (SlopeR2Product.mk ([1, 2, 3] : List ℝ)).CalcSlopeR2Product Real.sqrt := by
  refine ⟨by norm_num, ?_⟩
  have h := C8_scale_invariance Real.sqrt ([1, 2, 3] : List ℝ) 100 0 (by norm_num)
  have e : List.map (fun v : ℝ => 100 * v + 0) [1, 2, 3] = [100, 200, 300] := by
    simp only [List.map_cons, List.map_nil]
    norm_num
  rw [e] at h
  exact h

end ValueClaims

/-! ## Claims on `Normalize` -/

section NormalizeClaims

variable {α : Type} [LinearOrderedField α]

/-- In exact arithmetic, for every non-empty, non-constant series `s`, `Normalize(s)` returns a
series `out` of the same length whose `i`-th element is
`(s_i - min s) / (max s - min s)`, where `min s` and `max s` are the least and
the greatest element of `s`; every element of `out` lies in `[0, 1]`, the least
element of `out` is exactly `0`, its greatest element is exactly `1`, and
`s_i <= s_j` implies `out_i <= out_j`. -/
theorem Normalize_range_exact (s : List α) (_hne : s ≠ []) (hnc : ∃ x ∈ s, ∃ y ∈ s, x ≠ y) :
    ∃ (out : List α) (m M : α),
      Normalize s = Except.ok out ∧
      (m ∈ s ∧ ∀ x ∈ s, m ≤ x) ∧ (M ∈ s ∧ ∀ x ∈ s, x ≤ M) ∧
      out = s.map (fun v => (v - m) / (M - m)) ∧
      ∃ hlen : out.length = s.length,
        (∀ i : Fin s.length, out.get (Fin.cast hlen.symm i) = (s.get i - m) / (M - m)) ∧
        (∀ y ∈ out, 0 ≤ y ∧ y ≤ 1) ∧
        ((0 : α) ∈ out ∧ ∀ y ∈ out, 0 ≤ y) ∧
        ((1 : α) ∈ out ∧ ∀ y ∈ out, y ≤ 1) ∧
        (∀ i j : Fin s.length, s.get i ≤ s.get j →
          out.get (Fin.cast hlen.symm i) ≤ out.get (Fin.cast hlen.symm j)) := by
  obtain ⟨x, hx, y, hy, hxy⟩ := hnc
  obtain ⟨out, hout⟩ := Normalize_ok_of_ne s x y hx hy hxy
  obtain ⟨v, vs, hs, hlt, hmap⟩ := Normalize_ok_inv s out hout
  have hd : 0 < max_element v vs - min_element v vs := sub_pos.mpr hlt
  have hb := Normalize_ok_bounds s out hout
  have hget : ∀ i : Fin s.length,
      out.get (Fin.cast (Normalize_ok_length s out hout).symm i)
        = (s.get i - min_element v vs) / (max_element v vs - min_element v vs) := by
    intro i
    subst hmap
    simp
  refine ⟨out, min_element v vs, max_element v vs, hout, ?_, ?_, hmap,
    Normalize_ok_length s out hout, hget, hb,
    ⟨Normalize_ok_zero_mem s out hout, fun y hy => (hb y hy).1⟩,
    ⟨Normalize_ok_one_mem s out hout, fun y hy => (hb y hy).2⟩, ?_⟩
  · rw [hs]
    exact ⟨min_element_mem v vs, min_element_le v vs⟩
  · rw [hs]
    exact ⟨max_element_mem v vs, le_max_element v vs⟩
  · intro i j hij
    rw [hget i, hget j]
    exact div_le_div_of_nonneg_right (sub_le_sub_right hij _) hd.le

/-- The exact normalization of the series `[3, 1, 2]` is `[1, 0, 1/2]`. -/
theorem Normalize_range_exact_witness :
    Normalize ([3, 1, 2] : List ℚ) = Except.ok [1, 0, 1 / 2] ∧
    ∃ (out : List ℚ) (m M : ℚ),
      Normalize ([3, 1, 2] : List ℚ) = Except.ok out ∧
      (m ∈ ([3, 1, 2] : List ℚ) ∧ ∀ x ∈ ([3, 1, 2] : List ℚ), m ≤ x) ∧
      (M ∈ ([3, 1, 2] : List ℚ) ∧ ∀ x ∈ ([3, 1, 2] : List ℚ), x ≤ M) ∧
      out = ([3, 1, 2] : List ℚ).map (fun v => (v - m) / (M - m)) ∧
      ∃ hlen : out.length = ([3, 1, 2] : List ℚ).length,
        (∀ i : Fin ([3, 1, 2] : List ℚ).length,
          out.get (Fin.cast hlen.symm i) = (([3, 1, 2] : List ℚ).get i - m) / (M - m)) ∧
        (∀ y ∈ out, 0 ≤ y ∧ y ≤ 1) ∧
        ((0 : ℚ) ∈ out ∧ ∀ y ∈ out, 0 ≤ y) ∧
        ((1 : ℚ) ∈ out ∧ ∀ y ∈ out, y ≤ 1) ∧
        (∀ i j : Fin ([3, 1, 2] : List ℚ).length,
          ([3, 1, 2] : List ℚ).get i ≤ ([3, 1, 2] : List ℚ).get j →
          out.get (Fin.cast hlen.symm i) ≤ out.get (Fin.cast hlen.symm j)) :=
  ⟨by norm_num [Normalize, min_element, max_element],
    Normalize_range_exact [3, 1, 2] (by simp) ⟨3, by simp, 1, by simp, by norm_num⟩⟩

end NormalizeClaims

/-! ## The sign of the covariance of two monotone series -/

section Monotone

variable {α : Type} [LinearOrderedField α]

/-- Expanding a sum of products of deviations from two reference values. -/
theorem sum_dev_mul_dev (a b : α) (x y : List α) (h : x.length = y.length) :
    (List.zipWith (fun u v => (u - a) * (v - b)) x y).sum
      = (List.zipWith (fun u v => u * v) x y).sum - b * x.sum - a * y.sum
        + (x.length : α) * a * b := by
  induction x generalizing y with
  | nil =>
    have hy : y = [] := List.length_eq_zero.mp h.symm
    subst hy
    simp
  | cons u us ih =>
    cases y with
    | nil => simp at h
    | cons w ws =>
      have hl : us.length = ws.length := by simpa using h
      simp only [List.zipWith_cons_cons, List.sum_cons, List.length_cons, Nat.cast_succ, ih ws hl]
      ring

theorem sum_dev_mul_dev_nonneg (a b : α) (x y : List α)
    (hx : ∀ u ∈ x, a < u) (hy : ∀ v ∈ y, b < v) :
    0 ≤ (List.zipWith (fun u v => (u - a) * (v - b)) x y).sum := by
  induction x generalizing y with
  | nil => simp
  | cons u us ih =>
    cases y with
    | nil => simp
    | cons w ws =>
      simp only [List.zipWith_cons_cons, List.sum_cons]
      have h1 : 0 < (u - a) * (w - b) :=
        mul_pos (sub_pos.mpr (hx u (List.mem_cons_self u us)))
          (sub_pos.mpr (hy w (List.mem_cons_self w ws)))
      have h2 := ih ws (fun t ht => hx t (List.mem_cons_of_mem u ht))
        (fun t ht => hy t (List.mem_cons_of_mem w ht))
      linarith

theorem sum_dev_mul_dev_pos (a b : α) (x y : List α)
    (hx : ∀ u ∈ x, a < u) (hy : ∀ v ∈ y, b < v) (hxne : x ≠ []) (hyne : y ≠ []) :
    0 < (List.zipWith (fun u v => (u - a) * (v - b)) x y).sum := by
  cases x with
  | nil => exact absurd rfl hxne
  | cons u us =>
    cases y with
    | nil => exact absurd rfl hyne
    | cons w ws =>
      simp only [List.zipWith_cons_cons, List.sum_cons]
      have h1 : 0 < (u - a) * (w - b) :=
        mul_pos (sub_pos.mpr (hx u (List.mem_cons_self u us)))
          (sub_pos.mpr (hy w (List.mem_cons_self w ws)))
      have h2 := sum_dev_mul_dev_nonneg a b us ws
        (fun t ht => hx t (List.mem_cons_of_mem u ht))
        (fun t ht => hy t (List.mem_cons_of_mem w ht))
      linarith

/-- The Chebyshev sum inequality for two strictly increasing series of equal
length: `n * Σ x_i y_i - (Σ x_i)(Σ y_i)` is non-negative, and positive from
length 2 on. -/
theorem chebyshev_increasing (x y : List α) (h : x.length = y.length)
    (hx : x.Sorted (fun u v => u < v)) (hy : y.Sorted (fun u v => u < v)) :
    0 ≤ (x.length : α) * (List.zipWith (fun u v => u * v) x y).sum - x.sum * y.sum ∧
      (2 ≤ x.length →
        0 < (x.length : α) * (List.zipWith (fun u v => u * v) x y).sum - x.sum * y.sum) := by
  induction x generalizing y with
  | nil => simp
  | cons u us ih =>
    cases y with
    | nil => simp at h
    | cons w ws =>
      have hl : us.length = ws.length := by simpa using h
      have hxs := List.sorted_cons.mp hx
      have hys := List.sorted_cons.mp hy
      have hrec := ih ws hl hxs.2 hys.2
      have hstep : ((u :: us).length : α)
            * (List.zipWith (fun u v => u * v) (u :: us) (w :: ws)).sum
            - (u :: us).sum * (w :: ws).sum
          = ((us.length : α) * (List.zipWith (fun u v => u * v) us ws).sum - us.sum * ws.sum)
            + (List.zipWith (fun s t => (s - u) * (t - w)) us ws).sum := by
        rw [sum_dev_mul_dev u w us ws hl]
        simp only [List.zipWith_cons_cons, List.sum_cons, List.length_cons, Nat.cast_succ]
        ring
      rw [hstep]
      constructor
      · exact add_nonneg hrec.1 (sum_dev_mul_dev_nonneg u w us ws hxs.1 hys.1)
      · intro h2
        have hne : us ≠ [] := by
          intro hnil
          rw [hnil] at h2
          simp at h2
        have hne2 : ws ≠ [] := by
          intro hnil
          rw [hnil] at hl
          exact hne (List.length_eq_zero.mp hl)
        exact add_pos_of_nonneg_of_pos hrec.1
          (sum_dev_mul_dev_pos u w us ws hxs.1 hys.1 hne hne2)

/-- The population covariance in terms of the plain sums. -/
theorem PopulationCovariance_eq (x y : List α) (h : x.length = y.length) (hne : x ≠ []) :
    PopulationCovariance x y
      = ((x.length : α) * (List.zipWith (fun u v => u * v) x y).sum - x.sum * y.sum)
        / ((x.length : α) * (x.length : α)) := by
  have hn : (x.length : α) ≠ 0 := Nat.cast_ne_zero.mpr (List.length_pos.mpr hne).ne.symm
  unfold PopulationCovariance
  rw [sum_dev_mul_dev (Mean x) (Mean y) x y h]
  unfold Mean
  rw [← h]
  field_simp
  ring

theorem PopulationCovariance_pos (x y : List α) (h : x.length = y.length) (h2 : 2 ≤ x.length)
    (hx : x.Sorted (fun u v => u < v)) (hy : y.Sorted (fun u v => u < v)) :
    0 < PopulationCovariance x y := by
  have hne : x ≠ [] := by
    intro hnil
    rw [hnil] at h2
    simp at h2
  have hn : 0 < (x.length : α) := Nat.cast_pos.mpr (List.length_pos.mpr hne)
  rw [PopulationCovariance_eq x y h hne]
  exact div_pos ((chebyshev_increasing x y h hx hy).2 h2) (mul_pos hn hn)

end Monotone

/-! ## Strictly monotone price series -/

section StrictlyMonotone

variable {α : Type} [LinearOrderedField α]

theorem sum_map_neg_eq (y : List α) : (y.map (fun v => -v)).sum = -y.sum := by
  induction y with
  | nil => simp
  | cons w ws ih =>
    simp only [List.map_cons, List.sum_cons, ih]
    ring

theorem sum_zipWith_mul_neg (x y : List α) :
    (List.zipWith (fun u v => u * v) x (y.map (fun v => -v))).sum
      = -(List.zipWith (fun u v => u * v) x y).sum := by
  induction x generalizing y with
  | nil => simp
  | cons u us ih =>
    cases y with
    | nil => simp
    | cons w ws =>
      simp only [List.map_cons, List.zipWith_cons_cons, List.sum_cons, ih ws]
      ring

theorem PopulationCovariance_neg (x y : List α) (h : x.length = y.length) (h2 : 2 ≤ x.length)
    (hx : x.Sorted (fun u v => u < v)) (hy : y.Sorted (fun u v => u > v)) :
    PopulationCovariance x y < 0 := by
  have hne : x ≠ [] := by
    intro hnil
    rw [hnil] at h2
    simp at h2
  have hn : 0 < (x.length : α) := Nat.cast_pos.mpr (List.length_pos.mpr hne)
  have hy2 : (y.map (fun v => -v)).Sorted (fun u v => u < v) :=
    List.Pairwise.map (fun v => -v) (fun a b hab => neg_lt_neg hab) hy
  have hc := (chebyshev_increasing x (y.map (fun v => -v)) (by simpa using h) hx hy2).2 h2
  rw [sum_zipWith_mul_neg, sum_map_neg_eq] at hc
  rw [PopulationCovariance_eq x y h hne]
  apply div_neg_of_neg_of_pos _ (mul_pos hn hn)
  linarith

theorem CreateXseries_sorted (n : Nat) :
    (CreateXseries n : List α).Sorted (fun u v => u < v) := by
  rw [CreateXseries_eq]
  apply List.Pairwise.map _ _ (List.pairwise_lt_range n)
  intro a b hab
  exact add_lt_add_right (Nat.cast_lt.mpr hab) 1

theorem Normalize_sorted_lt (s out : List α) (h : Normalize s = Except.ok out)
    (hs : s.Sorted (fun u v => u < v)) : out.Sorted (fun u v => u < v) := by
  obtain ⟨v, vs, _, hlt, rfl⟩ := Normalize_ok_inv s out h
  apply List.Pairwise.map _ _ hs
  intro a b hab
  exact div_lt_div_of_pos_right (sub_lt_sub_right hab _) (sub_pos.mpr hlt)

theorem Normalize_sorted_gt (s out : List α) (h : Normalize s = Except.ok out)
    (hs : s.Sorted (fun u v => u > v)) : out.Sorted (fun u v => u > v) := by
  obtain ⟨v, vs, _, hlt, rfl⟩ := Normalize_ok_inv s out h
  apply List.Pairwise.map _ _ hs
  intro a b hab
  exact div_lt_div_of_pos_right (sub_lt_sub_right hab _) (sub_pos.mpr hlt)

/-- A series of length at least 2 without repeated values is normalized. -/
theorem Normalize_ok_of_sorted (R : α → α → Prop) (hR : ∀ a b, R a b → a ≠ b) (s : List α)
    (h2 : 2 ≤ s.length) (hs : s.Sorted R) : ∃ out, Normalize s = Except.ok out := by
  match s, h2, hs with
  | a :: b :: t, _, hs =>
    have hab : R a b := List.rel_of_sorted_cons hs b (List.mem_cons_self b t)
    exact Normalize_ok_of_ne (a :: b :: t) a b (List.mem_cons_self a _)
      (List.mem_cons_of_mem a (List.mem_cons_self b t)) (hR a b hab)

/-- The returned value in terms of the covariance and the two variances. -/
theorem result_eq (x y : List ℝ) :
    Slope x y * (Correlation Real.sqrt x y * Correlation Real.sqrt x y)
      = PopulationCovariance x y / PopulationVariance x
        * (PopulationCovariance x y ^ 2 / (PopulationVariance x * PopulationVariance y)) := by
  rw [Correlation_mul_self]
  rfl

end StrictlyMonotone

section MonotoneClaims

/-- C7: in exact arithmetic, on every strictly increasing price series of
length at least 2 `CalcSlopeR2Product` returns a strictly positive value, and on
every strictly decreasing price series of length at least 2 it returns a
strictly negative value. -/
theorem C7_sign_on_monotone (prices : List ℝ) (hlen : 2 ≤ prices.length) :
    (prices.Sorted (fun u v => u < v) →
      ∃ r, (SlopeR2Product.mk prices).CalcSlopeR2Product Real.sqrt = Except.ok r ∧ 0 < r) ∧
    (prices.Sorted (fun u v => u > v) →
      ∃ r, (SlopeR2Product.mk prices).CalcSlopeR2Product Real.sqrt = Except.ok r ∧ r < 0) := by
  constructor
  · intro hs
    obtain ⟨ny, hny⟩ := Normalize_ok_of_sorted _ (fun a b hab => ne_of_lt hab) prices hlen hs
    obtain ⟨nx, hnx, hxy, hvx, hvy, hr⟩ :=
      CalcSlopeR2Product_of_Normalize_ok Real.sqrt prices ny hny
    refine ⟨_, hr, ?_⟩
    have hnxlen : 2 ≤ nx.length := by
      rw [hxy, Normalize_ok_length prices ny hny]
      exact hlen
    have hcov : 0 < PopulationCovariance nx ny :=
      PopulationCovariance_pos nx ny hxy hnxlen
        (Normalize_sorted_lt _ nx hnx (CreateXseries_sorted _))
        (Normalize_sorted_lt _ ny hny hs)
    rw [result_eq]
    exact mul_pos (div_pos hcov hvx) (div_pos (pow_pos hcov 2) (mul_pos hvx hvy))
  · intro hs
    obtain ⟨ny, hny⟩ := Normalize_ok_of_sorted _ (fun a b hab => ne_of_gt hab) prices hlen hs
    obtain ⟨nx, hnx, hxy, hvx, hvy, hr⟩ :=
      CalcSlopeR2Product_of_Normalize_ok Real.sqrt prices ny hny
    refine ⟨_, hr, ?_⟩
    have hnxlen : 2 ≤ nx.length := by
      rw [hxy, Normalize_ok_length prices ny hny]
      exact hlen
    have hcov : PopulationCovariance nx ny < 0 :=
      PopulationCovariance_neg nx ny hxy hnxlen
        (Normalize_sorted_lt _ nx hnx (CreateXseries_sorted _))
        (Normalize_sorted_gt _ ny hny hs)
    rw [result_eq]
    exact mul_neg_of_neg_of_pos (div_neg_of_neg_of_pos hcov hvx)
      (div_pos (sq_pos_of_neg hcov) (mul_pos hvx hvy))

/-- Witness of C7 at the price series `[1, 2, 4]` and `[4, 2, 1]`. -/
theorem C7_sign_on_monotone_witness :
    (∃ r, (SlopeR2Product.mk ([1, 2, 4] : List ℝ)).CalcSlopeR2Product Real.sqrt
      = Except.ok r ∧ 0 < r) ∧
    (∃ r, (SlopeR2Product.mk ([4, 2, 1] : List ℝ)).CalcSlopeR2Product Real.sqrt
      = Except.ok r ∧ r < 0) :=
  ⟨(C7_sign_on_monotone [1, 2, 4] (by simp)).1 (by norm_num [List.Sorted]),
    (C7_sign_on_monotone [4, 2, 1] (by simp)).2 (by norm_num [List.Sorted])⟩

end MonotoneClaims

/-! ## Sums over the positions of a series -/

section Positions

variable {α : Type} [LinearOrderedField α]

/-- The sum accumulated by a loop over a series, written over its positions. -/
theorem sum_map_eq_sum_range (g : α → α) (l : List α) :
    (l.map g).sum = ∑ i in Finset.range l.length, g (l.getD i 0) := by
  induction l with
  | nil => simp
  | cons u us ih =>
    rw [List.length_cons, Finset.sum_range_succ']
    simp [ih, add_comm]

/-- The sum accumulated by an index loop over two series of equal length,
written over the positions. -/
theorem sum_zip_eq_sum_range (f : α → α → α) (x y : List α) (h : x.length = y.length) :
    ((List.zip x y).map (fun xy => f xy.1 xy.2)).sum
      = ∑ i in Finset.range x.length, f (x.getD i 0) (y.getD i 0) := by
  induction x generalizing y with
  | nil => simp
  | cons u us ih =>
    cases y with
    | nil => simp at h
    | cons w ws =>
      have hl : us.length = ws.length := by simpa using h
      rw [List.length_cons, Finset.sum_range_succ']
      simp [ih ws hl, add_comm]

end Positions

/-! ## Claims on the statistics primitives and on purity -/

section PrimitiveClaims

variable {α : Type} [LinearOrderedField α]

/-- C11: `CalcCovariance(x, x_mean, y, y_mean)` throws the size-mismatch
exception, a `std::invalid_argument`, exactly when the two lengths differ,
whatever the supplied means, and throws nothing else; when the lengths are
equal and non-zero it returns the sum over the positions `i` of
`(x_i - x_mean) * (y_i - y_mean)`, divided by the length. -/
theorem C11_CalcCovariance (x y : List α) (x_mean y_mean : α) :
    (CalcCovariance x x_mean y y_mean = Except.error SizeMismatchError ↔ x.length ≠ y.length) ∧
    (∀ e, CalcCovariance x x_mean y y_mean = Except.error e → e = SizeMismatchError) ∧
    SizeMismatchError.cls = ExnClass.invalid_argument ∧
    (x.length = y.length → x.length ≠ 0 →
      CalcCovariance x x_mean y y_mean = Except.ok
        ((∑ i in Finset.range x.length, (x.getD i 0 - x_mean) * (y.getD i 0 - y_mean))
          / (x.length : α))) := by
  by_cases h : x.length = y.length
  · have hok := CalcCovariance_eq x y x_mean y_mean h
    refine ⟨?_, ?_, rfl, ?_⟩
    · rw [hok]
      constructor
      · intro hc
        cases hc
      · intro hc
        exact absurd h hc
    · intro e he
      rw [hok] at he
      cases he
    · intro _ _
      rw [hok, sum_zip_eq_sum_range (fun u v => (u - x_mean) * (v - y_mean)) x y h]
  · have herr : CalcCovariance x x_mean y y_mean = Except.error SizeMismatchError := by
      unfold CalcCovariance
      rw [if_pos h]
    refine ⟨?_, ?_, rfl, ?_⟩
    · rw [herr]
      simp [h]
    · intro e he
      rw [herr] at he
      injection he with he
      exact he.symm
    · intro hc
      exact absurd hc h

/-- Witness of C11: lengths 3 and 4 throw, and the equal lengths of
`[1, 2, 3]` and `[2, 4, 9]` with means `2` and `5` give `7 / 3`. -/
theorem C11_CalcCovariance_witness :
    CalcCovariance ([1, 2, 3] : List ℚ) 2 [2, 4, 9, 1] 4 = Except.error SizeMismatchError ∧
    CalcCovariance ([1, 2, 3] : List ℚ) 2 [2, 4, 9] 5 = Except.ok
      ((∑ i in Finset.range ([1, 2, 3] : List ℚ).length,
        (([1, 2, 3] : List ℚ).getD i 0 - 2) * (([2, 4, 9] : List ℚ).getD i 0 - 5))
          / (([1, 2, 3] : List ℚ).length : ℚ)) ∧
    CalcCovariance ([1, 2, 3] : List ℚ) 2 [2, 4, 9] 5 = Except.ok (7 / 3) :=
  ⟨(C11_CalcCovariance [1, 2, 3] [2, 4, 9, 1] 2 4).1.mpr (by decide),
    (C11_CalcCovariance [1, 2, 3] [2, 4, 9] 2 5).2.2.2 rfl (by decide),
    by norm_num [CalcCovariance]⟩

/-- C19: `CalcVariance(series, mean)` has no failing path; for every non-empty
series and every supplied mean, the series own mean or not, it returns the sum
over the positions `i` of `(series_i - mean)^2` divided by the length `n`, a
non-zero divisor that is `n` and not `n - 1`. -/
theorem C19_CalcVariance (series : List α) (mean : α) (hne : series ≠ []) :
    CalcVariance series mean
      = (∑ i in Finset.range series.length, (series.getD i 0 - mean) ^ 2)
        / (series.length : α) ∧
    (series.length : α) ≠ 0 := by
  constructor
  · rw [CalcVariance_eq, sum_map_eq_sum_range]
    congr 1
    apply Finset.sum_congr rfl
    intro i _
    ring
  · exact Nat.cast_ne_zero.mpr (List.length_pos.mpr hne).ne.symm

/-- Witness of C19: on `[1, 3]` the own mean `2` gives `1` (the divisor `n - 1`
would give `2`), and the foreign mean `0` gives `5` without any failure. -/
theorem C19_CalcVariance_witness :
    (CalcVariance ([1, 3] : List ℚ) 0
      = (∑ i in Finset.range ([1, 3] : List ℚ).length, (([1, 3] : List ℚ).getD i 0 - 0) ^ 2)
        / (([1, 3] : List ℚ).length : ℚ) ∧
      ((([1, 3] : List ℚ).length : ℚ) ≠ 0)) ∧
    CalcVariance ([1, 3] : List ℚ) 0 = 5 ∧
    CalcVariance ([1, 3] : List ℚ) 2 = 1 :=
  ⟨C19_CalcVariance [1, 3] 0 (by simp), by norm_num [CalcVariance],
    by norm_num [CalcVariance]⟩

/-- C20: `CalcMean` throws the empty-series exception exactly on the empty
series and throws nothing else; on every non-empty series it returns the
left-to-right sum of the elements, started at `0`, divided by the length. -/
theorem C20_CalcMean (series : List α) :
    (CalcMean series = Except.error EmptySeriesError ↔ series = []) ∧
    (∀ e, CalcMean series = Except.error e → e = EmptySeriesError) ∧
    (series ≠ [] →
      CalcMean series = Except.ok
        (series.foldl (fun acc value => acc + value) 0 / (series.length : α)) ∧
      series.foldl (fun acc value => acc + value) 0 = series.sum ∧
      (series.length : α) ≠ 0) := by
  cases series with
  | nil =>
    refine ⟨by simp [CalcMean_nil], ?_, ?_⟩
    · intro e he
      rw [CalcMean_nil] at he
      injection he with he
      exact he.symm
    · intro h
      exact absurd rfl h
  | cons v vs =>
    have hok : CalcMean (v :: vs) = Except.ok
        ((v :: vs).foldl (fun acc value => acc + value) 0 / ((v :: vs).length : α)) := by
      unfold CalcMean
      rw [if_neg (by simp)]
    refine ⟨?_, ?_, ?_⟩
    · rw [hok]
      constructor
      · intro hc
        cases hc
      · intro hc
        cases hc
    · intro e he
      rw [hok] at he
      cases he
    · intro _
      refine ⟨hok, ?_, ?_⟩
      · rw [foldl_acc (fun value => value) (v :: vs) 0]
        simp
      · exact Nat.cast_ne_zero.mpr (Nat.succ_ne_zero _)

/-- Witness of C20 at the series `[1, 2, 4]`, whose mean is `7 / 3`. -/
theorem C20_CalcMean_witness :
    CalcMean ([] : List ℚ) = Except.error EmptySeriesError ∧
    (CalcMean ([1, 2, 4] : List ℚ) = Except.ok
        (([1, 2, 4] : List ℚ).foldl (fun acc value => acc + value) 0
          / (([1, 2, 4] : List ℚ).length : ℚ)) ∧
      ([1, 2, 4] : List ℚ).foldl (fun acc value => acc + value) 0 = ([1, 2, 4] : List ℚ).sum ∧
      ((([1, 2, 4] : List ℚ).length : ℚ) ≠ 0)) ∧
    CalcMean ([1, 2, 4] : List ℚ) = Except.ok (7 / 3) :=
  ⟨(C20_CalcMean []).1.mpr rfl, (C20_CalcMean [1, 2, 4]).2.2 (by simp),
    by norm_num [CalcMean]⟩

end PrimitiveClaims

/-! ## The exceptions that `CalcSlopeR2Product` can throw -/

section Outcomes

variable {α : Type} [LinearOrderedField α]

theorem Normalize_error_cases (s : List α) (e : Exn) (h : Normalize s = Except.error e) :
    e = EmptySeriesError ∨ e = DegenerateSeriesError := by
  cases s with
  | nil =>
    rw [Normalize_nil] at h
    injection h with h
    exact Or.inl h.symm
  | cons v vs =>
    rw [Normalize_cons] at h
    split_ifs at h
    injection h with h
    exact Or.inr h.symm

/-- Every run of `CalcSlopeR2Product` either returns a value or throws what its
first `Normalize` call throws. -/
theorem CalcSlopeR2Product_outcome (sqrt : α → α) (prices : List α) :
    (∃ r, (SlopeR2Product.mk prices).CalcSlopeR2Product sqrt = Except.ok r) ∨
    (∃ e, Normalize prices = Except.error e ∧
      (SlopeR2Product.mk prices).CalcSlopeR2Product sqrt = Except.error e ∧
      (e = EmptySeriesError ∨ e = DegenerateSeriesError)) := by
  cases hN : Normalize prices with
  | error e =>
    exact Or.inr ⟨e, rfl,
      CalcSlopeR2Product_of_Normalize_error sqrt (SlopeR2Product.mk prices) e hN,
      Normalize_error_cases prices e hN⟩
  | ok ny =>
    obtain ⟨nx, _, _, _, _, hr⟩ := CalcSlopeR2Product_of_Normalize_ok sqrt prices ny hN
    exact Or.inl ⟨_, hr⟩

theorem Normalize_ok_iff_two_values (s : List α) :
    (∃ out, Normalize s = Except.ok out) ↔ ∃ a ∈ s, ∃ b ∈ s, a ≠ b := by
  constructor
  · rintro ⟨out, h⟩
    obtain ⟨v, vs, hs, hlt, _⟩ := Normalize_ok_inv s out h
    exact ⟨min_element v vs, hs ▸ min_element_mem v vs, max_element v vs,
      hs ▸ max_element_mem v vs, hlt.ne⟩
  · rintro ⟨a, ha, b, hb, hab⟩
    exact Normalize_ok_of_ne s a b ha hb hab

end Outcomes

section GuardClaims

variable {α : Type} [LinearOrderedField α]

/-- C13: in exact arithmetic the zero-variance guard is never taken.  The first
`Normalize` call returns exactly on the price series with two distinct values;
then the second `Normalize` call returns as well, both variances computed on
lines 75-76 are strictly positive, and `CalcSlopeR2Product` returns a value.
On no price series does it throw the zero-variance exception. -/
theorem C13_zero_variance_unreachable (sqrt : α → α) (prices : List α) :
    ((∃ ny, Normalize prices = Except.ok ny) ↔ ∃ a ∈ prices, ∃ b ∈ prices, a ≠ b) ∧
    (∀ ny, Normalize prices = Except.ok ny →
      ∃ nx x_mean y_mean r,
        Normalize (CreateXseries ny.length : List α) = Except.ok nx ∧
        CalcMean nx = Except.ok x_mean ∧ CalcMean ny = Except.ok y_mean ∧
        0 < CalcVariance nx x_mean ∧ 0 < CalcVariance ny y_mean ∧
        (SlopeR2Product.mk prices).CalcSlopeR2Product sqrt = Except.ok r) ∧
    (SlopeR2Product.mk prices).CalcSlopeR2Product sqrt ≠ Except.error ZeroVarianceError := by
  refine ⟨Normalize_ok_iff_two_values prices, ?_, ?_⟩
  · intro ny hny
    obtain ⟨nx, hnx, _, _, _, hr⟩ := CalcSlopeR2Product_of_Normalize_ok sqrt prices ny hny
    rw [← Normalize_ok_length prices ny hny] at hnx
    exact ⟨nx, Mean nx, Mean ny, _, hnx,
      CalcMean_eq_Mean nx (Normalize_ok_ne_nil _ nx hnx),
      CalcMean_eq_Mean ny (Normalize_ok_ne_nil _ ny hny),
      CalcVariance_Normalize_pos _ nx _ hnx, CalcVariance_Normalize_pos _ ny _ hny, hr⟩
  · rcases CalcSlopeR2Product_outcome sqrt prices with ⟨r, hr⟩ | ⟨e, _, he, hcases⟩
    · rw [hr]
      intro hc
      cases hc
    · rw [he]
      intro hc
      injection hc with hc
      rcases hcases with h | h
      · rw [h] at hc
        exact absurd hc (by decide)
      · rw [h] at hc
        exact absurd hc (by decide)

/-- Witness of C13 at the price series `[1, 2]`, whose normalized form is `[0, 1]`. -/
theorem C13_zero_variance_unreachable_witness :
    Normalize ([1, 2] : List ℝ) = Except.ok [0, 1] ∧
    ∃ nx x_mean y_mean r,
      Normalize (CreateXseries ([0, 1] : List ℝ).length : List ℝ) = Except.ok nx ∧
      CalcMean nx = Except.ok x_mean ∧ CalcMean ([0, 1] : List ℝ) = Except.ok y_mean ∧
      0 < CalcVariance nx x_mean ∧ 0 < CalcVariance ([0, 1] : List ℝ) y_mean ∧
      (SlopeR2Product.mk ([1, 2] : List ℝ)).CalcSlopeR2Product Real.sqrt = Except.ok r :=
  ⟨Normalize_pair_lt 1 2 (by norm_num),
    (C13_zero_variance_unreachable Real.sqrt [1, 2]).2.1 [0, 1]
      (Normalize_pair_lt 1 2 (by norm_num))⟩

/-- C14: in every run of `CalcSlopeR2Product` in which both `Normalize` calls
returned, `normalized_x` and `normalized_prices` have the length `n` of the
price series and `n >= 2`; so neither division by a count divides by zero, the
two series passed to `CalcCovariance` have equal length and it returns.  On no
price series does `CalcSlopeR2Product` throw the size-mismatch exception. -/
theorem C14_lengths (sqrt : α → α) (prices : List α) :
    (∀ ny nx, Normalize prices = Except.ok ny →
      Normalize (CreateXseries ny.length : List α) = Except.ok nx →
        ny.length = prices.length ∧ nx.length = prices.length ∧ 2 ≤ prices.length ∧
        (nx.length : α) ≠ 0 ∧ (ny.length : α) ≠ 0 ∧ nx.length = ny.length ∧
        ∀ x_mean y_mean, ∃ c, CalcCovariance nx x_mean ny y_mean = Except.ok c) ∧
    (∀ l, (SlopeR2Product.mk prices).CalcLocals sqrt = Except.ok l →
      l.normalized_prices.length = prices.length ∧ l.normalized_x.length = prices.length ∧
      2 ≤ prices.length) ∧
    (SlopeR2Product.mk prices).CalcSlopeR2Product sqrt ≠ Except.error SizeMismatchError := by
  have key : ∀ ny nx : List α, Normalize prices = Except.ok ny →
      Normalize (CreateXseries ny.length : List α) = Except.ok nx →
        ny.length = prices.length ∧ nx.length = prices.length ∧ 2 ≤ prices.length := by
    intro ny nx hny hnx
    have h1 := Normalize_ok_length prices ny hny
    have h2 := Normalize_ok_length _ nx hnx
    rw [CreateXseries_length] at h2
    exact ⟨h1, h2.trans h1, Normalize_ok_two_le prices ny hny⟩
  refine ⟨?_, ?_, ?_⟩
  · intro ny nx hny hnx
    obtain ⟨h1, h2, h3⟩ := key ny nx hny hnx
    have hxy : nx.length = ny.length := h2.trans h1.symm
    refine ⟨h1, h2, h3, ?_, ?_, hxy, ?_⟩
    · rw [h2]
      exact Nat.cast_ne_zero.mpr (by omega)
    · rw [h1]
      exact Nat.cast_ne_zero.mpr (by omega)
    · intro x_mean y_mean
      exact ⟨_, CalcCovariance_eq nx ny x_mean y_mean hxy⟩
  · intro l hl
    obtain ⟨hny, hnx, _⟩ := CalcLocals_ok_inv sqrt _ l hl
    exact key _ _ hny hnx
  · rcases CalcSlopeR2Product_outcome sqrt prices with ⟨r, hr⟩ | ⟨e, _, he, hcases⟩
    · rw [hr]
      intro hc
      cases hc
    · rw [he]
      intro hc
      injection hc with hc
      rcases hcases with h | h
      · rw [h] at hc
        exact absurd hc (by decide)
      · rw [h] at hc
        exact absurd hc (by decide)

/-- Witness of C14 at the price series `[1, 2]`: both normalized series are
`[0, 1]`, of length 2. -/
theorem C14_lengths_witness :
    ([0, 1] : List ℝ).length = ([1, 2] : List ℝ).length ∧
    ([0, 1] : List ℝ).length = ([1, 2] : List ℝ).length ∧
    2 ≤ ([1, 2] : List ℝ).length ∧
    ((([0, 1] : List ℝ).length : ℝ) ≠ 0) ∧ ((([0, 1] : List ℝ).length : ℝ) ≠ 0) ∧
    ([0, 1] : List ℝ).length = ([0, 1] : List ℝ).length ∧
    ∀ x_mean y_mean : ℝ, ∃ c, CalcCovariance [0, 1] x_mean [0, 1] y_mean = Except.ok c :=
  (C14_lengths Real.sqrt [1, 2]).1 [0, 1] [0, 1] (Normalize_pair_lt 1 2 (by norm_num))
    Normalize_CreateXseries_two

end GuardClaims

/-! ## The Cauchy-Schwarz inequality for the covariance -/

section CauchySchwarz

variable {α : Type} [LinearOrderedField α]

/-- The quadratic `t^2 * Σ (u - a)^2 - 2 t * Σ (u - a)(v - b) + Σ (v - b)^2` is a
sum of squares. -/
theorem quadratic_nonneg (t a b : α) (x y : List α) (h : x.length = y.length) :
    0 ≤ t ^ 2 * (x.map (fun u => (u - a) ^ 2)).sum
        - 2 * t * (List.zipWith (fun u v => (u - a) * (v - b)) x y).sum
        + (y.map (fun v => (v - b) ^ 2)).sum := by
  induction x generalizing y with
  | nil =>
    have hy : y = [] := List.length_eq_zero.mp h.symm
    subst hy
    simp
  | cons u us ih =>
    cases y with
    | nil => simp at h
    | cons w ws =>
      have hl : us.length = ws.length := by simpa using h
      have h1 := ih ws hl
      have h2 : 0 ≤ ((u - a) * t - (w - b)) ^ 2 := sq_nonneg _
      simp only [List.map_cons, List.zipWith_cons_cons, List.sum_cons]
      nlinarith [h1, h2]

theorem sum_dev_sq_le (a b : α) (x y : List α) (h : x.length = y.length)
    (hA : 0 < (x.map (fun u => (u - a) ^ 2)).sum) :
    (List.zipWith (fun u v => (u - a) * (v - b)) x y).sum ^ 2
      ≤ (x.map (fun u => (u - a) ^ 2)).sum * (y.map (fun v => (v - b) ^ 2)).sum := by
  have hq := quadratic_nonneg
    ((List.zipWith (fun u v => (u - a) * (v - b)) x y).sum / (x.map (fun u => (u - a) ^ 2)).sum)
    a b x y h
  have hA0 : (x.map (fun u => (u - a) ^ 2)).sum ≠ 0 := hA.ne.symm
  have e : ((List.zipWith (fun u v => (u - a) * (v - b)) x y).sum
        / (x.map (fun u => (u - a) ^ 2)).sum) ^ 2 * (x.map (fun u => (u - a) ^ 2)).sum
      - 2 * ((List.zipWith (fun u v => (u - a) * (v - b)) x y).sum
        / (x.map (fun u => (u - a) ^ 2)).sum)
        * (List.zipWith (fun u v => (u - a) * (v - b)) x y).sum
      + (y.map (fun v => (v - b) ^ 2)).sum
      = ((x.map (fun u => (u - a) ^ 2)).sum * (y.map (fun v => (v - b) ^ 2)).sum
          - (List.zipWith (fun u v => (u - a) * (v - b)) x y).sum ^ 2)
        / (x.map (fun u => (u - a) ^ 2)).sum := by
    field_simp
    ring
  rw [e] at hq
  have h3 := (div_nonneg_iff.mp hq)
  rcases h3 with ⟨h4, _⟩ | ⟨_, h5⟩
  · linarith
  · exact absurd hA (not_lt.mpr h5)

/-- The squared population covariance is at most the product of the two
population variances. -/
theorem PopulationCovariance_sq_le (x y : List α) (h : x.length = y.length)
    (hvx : 0 < PopulationVariance x) :
    PopulationCovariance x y ^ 2 ≤ PopulationVariance x * PopulationVariance y := by
  have hn : 0 < (x.length : α) := by
    by_contra hc
    have h0 : (x.length : α) = 0 := le_antisymm (not_lt.mp hc) (Nat.cast_nonneg _)
    unfold PopulationVariance at hvx
    rw [h0, div_zero] at hvx
    exact lt_irrefl _ hvx
  have hA : 0 < (x.map (fun u => (u - Mean x) ^ 2)).sum := by
    unfold PopulationVariance at hvx
    exact (div_pos_iff_of_pos_right hn).mp hvx
  have hcs := sum_dev_sq_le (Mean x) (Mean y) x y h hA
  unfold PopulationCovariance PopulationVariance
  rw [← h, div_pow, div_mul_div_comm, sq (x.length : α)]
  exact div_le_div_of_nonneg_right hcs (mul_pos hn hn).le

end CauchySchwarz

/-! ## The coefficient of determination -/

section RSquared

variable {α : Type} [LinearOrderedField α]

/-- The arithmetic behind the product `slope * R^2`: with `slope = c / vx` and
`0 <= R^2 <= 1`, where `R^2 = c^2 / (vx * vy)`, the product has the sign of the
slope and at most its magnitude. -/
theorem slope_mul_rsq (c vx vy : α) (hvx : 0 < vx) (hvy : 0 < vy) (hcs : c ^ 2 ≤ vx * vy) :
    0 ≤ c ^ 2 / (vx * vy) ∧ c ^ 2 / (vx * vy) ≤ 1 ∧
    (0 < c / vx * (c ^ 2 / (vx * vy)) ↔ 0 < c / vx) ∧
    (c / vx * (c ^ 2 / (vx * vy)) < 0 ↔ c / vx < 0) ∧
    (c / vx * (c ^ 2 / (vx * vy)) = 0 ↔ c / vx = 0) ∧
    |c / vx * (c ^ 2 / (vx * vy))| ≤ |c / vx| := by
  have hp : 0 < vx * vy := mul_pos hvx hvy
  have h0 : 0 ≤ c ^ 2 / (vx * vy) := div_nonneg (sq_nonneg c) hp.le
  have h1 : c ^ 2 / (vx * vy) ≤ 1 := (div_le_one hp).mpr hcs
  refine ⟨h0, h1, ?_, ?_, ?_, ?_⟩
  · rcases lt_trichotomy c 0 with hc | hc | hc
    · have hs : c / vx < 0 := div_neg_of_neg_of_pos hc hvx
      have hr : c / vx * (c ^ 2 / (vx * vy)) ≤ 0 := mul_nonpos_of_nonpos_of_nonneg hs.le h0
      exact ⟨fun h => absurd h (not_lt.mpr hr), fun h => absurd h (not_lt.mpr hs.le)⟩
    · subst hc
      simp
    · have hs : 0 < c / vx := div_pos hc hvx
      have hr : 0 < c / vx * (c ^ 2 / (vx * vy)) := mul_pos hs (div_pos (pow_pos hc 2) hp)
      exact ⟨fun _ => hs, fun _ => hr⟩
  · rcases lt_trichotomy c 0 with hc | hc | hc
    · have hs : c / vx < 0 := div_neg_of_neg_of_pos hc hvx
      have hr : c / vx * (c ^ 2 / (vx * vy)) < 0 :=
        mul_neg_of_neg_of_pos hs (div_pos (sq_pos_of_neg hc) hp)
      exact ⟨fun _ => hs, fun _ => hr⟩
    · subst hc
      simp
    · have hs : 0 < c / vx := div_pos hc hvx
      have hr : 0 ≤ c / vx * (c ^ 2 / (vx * vy)) := mul_nonneg hs.le h0
      exact ⟨fun h => absurd h (not_lt.mpr hr), fun h => absurd h (not_lt.mpr hs.le)⟩
  · rcases eq_or_ne c 0 with hc | hc
    · subst hc
      simp
    · have hs : c / vx ≠ 0 := div_ne_zero hc hvx.ne.symm
      have hr : c / vx * (c ^ 2 / (vx * vy)) ≠ 0 :=
        mul_ne_zero hs (div_ne_zero (pow_ne_zero 2 hc) hp.ne.symm)
      exact ⟨fun h => absurd h hr, fun h => absurd h hs⟩
  · rw [abs_mul, abs_of_nonneg h0]
    exact mul_le_of_le_one_right (abs_nonneg _) h1

end RSquared

section RSquaredClaims

/-- C15: in exact arithmetic, whenever `CalcSlopeR2Product` returns `r`, the
factor `correlation^2` equals `cov^2 / (varX * varY)` and lies in `[0, 1]`, so
`r = slope * correlation^2` is positive, negative or zero exactly when the
slope is, and `|r| <= |slope|`. -/
theorem C15_r_squared_range (prices : List ℝ) (r : ℝ)
    (h : (SlopeR2Product.mk prices).CalcSlopeR2Product Real.sqrt = Except.ok r) :
    ∃ l : Locals ℝ, (SlopeR2Product.mk prices).CalcLocals Real.sqrt = Except.ok l ∧
      r = l.slope * l.correlation ^ 2 ∧
      l.correlation ^ 2 = l.covariance ^ 2 / (l.variance_x * l.variance_y) ∧
      0 ≤ l.correlation ^ 2 ∧ l.correlation ^ 2 ≤ 1 ∧
      (0 < r ↔ 0 < l.slope) ∧ (r < 0 ↔ l.slope < 0) ∧ (r = 0 ↔ l.slope = 0) ∧
      |r| ≤ |l.slope| := by
  obtain ⟨ny, hny⟩ := Normalize_ok_of_CalcSlopeR2Product_ok Real.sqrt prices r h
  obtain ⟨nx, _, hxy, hvx, hvy, hl⟩ := CalcLocals_of_Normalize_ok Real.sqrt prices ny hny
  have hr2 : (SlopeR2Product.mk prices).CalcSlopeR2Product Real.sqrt
      = Except.ok (Slope nx ny * (Correlation Real.sqrt nx ny * Correlation Real.sqrt nx ny)) := by
    unfold SlopeR2Product.CalcSlopeR2Product
    rw [hl]
    rfl
  rw [h] at hr2
  injection hr2 with hr2
  have hcs := PopulationCovariance_sq_le nx ny hxy hvx
  obtain ⟨h0, h1, hpos, hneg, hzero, habs⟩ :=
    slope_mul_rsq (PopulationCovariance nx ny) (PopulationVariance nx) (PopulationVariance ny)
      hvx hvy hcs
  have hR : Correlation Real.sqrt nx ny ^ 2
      = PopulationCovariance nx ny ^ 2 / (PopulationVariance nx * PopulationVariance ny) := by
    rw [sq, Correlation_mul_self]
  have hrval : r = PopulationCovariance nx ny / PopulationVariance nx
      * (PopulationCovariance nx ny ^ 2 / (PopulationVariance nx * PopulationVariance ny)) := by
    rw [hr2, result_eq]
  refine ⟨_, hl, ?_, hR, ?_, ?_, ?_, ?_, ?_, ?_⟩
  · show r = Slope nx ny * Correlation Real.sqrt nx ny ^ 2
    rw [hr2, sq]
  · show 0 ≤ Correlation Real.sqrt nx ny ^ 2
    rw [hR]
    exact h0
  · show Correlation Real.sqrt nx ny ^ 2 ≤ 1
    rw [hR]
    exact h1
  · rw [hrval]
    exact hpos
  · rw [hrval]
    exact hneg
  · rw [hrval]
    exact hzero
  · rw [hrval]
    exact habs

/-- Witness of C15 at the price series `[1, 2]`, on which the code returns `1`. -/
theorem C15_r_squared_range_witness :
    ∃ l : Locals ℝ, (SlopeR2Product.mk ([1, 2] : List ℝ)).CalcLocals Real.sqrt = Except.ok l ∧
      (1 : ℝ) = l.slope * l.correlation ^ 2 ∧
      l.correlation ^ 2 = l.covariance ^ 2 / (l.variance_x * l.variance_y) ∧
      0 ≤ l.correlation ^ 2 ∧ l.correlation ^ 2 ≤ 1 ∧
      ((0 : ℝ) < 1 ↔ 0 < l.slope) ∧ ((1 : ℝ) < 0 ↔ l.slope < 0) ∧
      ((1 : ℝ) = 0 ↔ l.slope = 0) ∧ |(1 : ℝ)| ≤ |l.slope| :=
  C15_r_squared_range [1, 2] 1 (CalcSlopeR2Product_increasing_pair 1 2 (by norm_num))

end RSquaredClaims

/-! ## `Normalize` from the least and the greatest value -/

section Extremes

variable {α : Type} [LinearOrderedField α]

/-- The outcome of `Normalize` in terms of any least element `m` and greatest
element `M` of the series. -/
theorem Normalize_of_bounds (s : List α) (m M : α) (hm : m ∈ s) (hM : M ∈ s)
    (hlo : ∀ x ∈ s, m ≤ x) (hhi : ∀ x ∈ s, x ≤ M) :
    Normalize s = if m = M then Except.error DegenerateSeriesError
      else Except.ok (s.map (fun v => (v - m) / (M - m))) := by
  cases s with
  | nil => cases hm
  | cons v vs =>
    have h1 : min_element v vs = m :=
      le_antisymm (min_element_le v vs m hm) (hlo _ (min_element_mem v vs))
    have h2 : max_element v vs = M :=
      le_antisymm (hhi _ (max_element_mem v vs)) (le_max_element v vs M hM)
    rw [Normalize_cons, h1, h2]

/-- A returned `Normalize` exhibits the least and the greatest value. -/
theorem Normalize_ok_bounds_inv (s out : List α) (h : Normalize s = Except.ok out) :
    ∃ m M, m ∈ s ∧ M ∈ s ∧ (∀ x ∈ s, m ≤ x) ∧ (∀ x ∈ s, x ≤ M) ∧ m < M ∧
      out = s.map (fun v => (v - m) / (M - m)) := by
  obtain ⟨v, vs, hs, hlt, hout⟩ := Normalize_ok_inv s out h
  refine ⟨min_element v vs, max_element v vs, ?_, ?_, ?_, ?_, hlt, hout⟩
  · rw [hs]
    exact min_element_mem v vs
  · rw [hs]
    exact max_element_mem v vs
  · rw [hs]
    exact min_element_le v vs
  · rw [hs]
    exact le_max_element v vs

/-- Reversing a series reverses its normalized form. -/
theorem Normalize_reverse_ok (s out : List α) (h : Normalize s = Except.ok out) :
    Normalize s.reverse = Except.ok out.reverse := by
  obtain ⟨m, M, hm, hM, hlo, hhi, hlt, hout⟩ := Normalize_ok_bounds_inv s out h
  rw [Normalize_of_bounds s.reverse m M (List.mem_reverse.mpr hm) (List.mem_reverse.mpr hM)
    (fun x hx => hlo x (List.mem_reverse.mp hx)) (fun x hx => hhi x (List.mem_reverse.mp hx)),
    if_neg hlt.ne, hout, List.map_reverse]

/-- A change of scale `v ↦ a * v + b` with `a < 0` replaces every normalized
value `t` by `1 - t`. -/
theorem Normalize_affine_neg_ok (s out : List α) (a b : α) (ha : a < 0)
    (h : Normalize s = Except.ok out) :
    Normalize (s.map (fun v => a * v + b)) = Except.ok (out.map (fun t => 1 - t)) := by
  obtain ⟨m, M, hm, hM, hlo, hhi, hlt, hout⟩ := Normalize_ok_bounds_inv s out h
  have hne : a * M + b ≠ a * m + b := by
    intro hc
    have h3 : a * M = a * m := add_right_cancel hc
    exact hlt.ne (mul_left_cancel₀ ha.ne h3).symm
  rw [Normalize_of_bounds (s.map (fun v => a * v + b)) (a * M + b) (a * m + b)
    (List.mem_map.mpr ⟨M, hM, rfl⟩) (List.mem_map.mpr ⟨m, hm, rfl⟩) ?_ ?_, if_neg hne, hout,
    List.map_map, List.map_map]
  · congr 1
    apply List.map_congr_left
    intro x _
    simp only [Function.comp]
    have hd : M - m ≠ 0 := (sub_pos.mpr hlt).ne.symm
    have hd2 : m - M ≠ 0 := (sub_neg.mpr hlt).ne
    have e1 : a * x + b - (a * M + b) = a * (x - M) := by ring
    have e2 : a * m + b - (a * M + b) = a * (m - M) := by ring
    rw [e1, e2, mul_div_mul_left _ _ ha.ne]
    field_simp
    ring
  · intro y hy
    obtain ⟨x, hx, rfl⟩ := List.mem_map.mp hy
    exact add_le_add_right (mul_le_mul_of_nonpos_left (hhi x hx) ha.le) b
  · intro y hy
    obtain ⟨x, hx, rfl⟩ := List.mem_map.mp hy
    exact add_le_add_right (mul_le_mul_of_nonpos_left (hlo x hx) ha.le) b

end Extremes

/-! ## Covariance under reflection `t ↦ 1 - t` -/

section Reflection

variable {α : Type} [LinearOrderedField α]

theorem zipWith_self_eq_map {γ β : Type} (f : γ → γ → β) (x : List γ) :
    List.zipWith f x x = x.map (fun u => f u u) := by
  induction x with
  | nil => rfl
  | cons u us ih => simp [ih]

theorem PopulationCovariance_self (x : List α) :
    PopulationCovariance x x = PopulationVariance x := by
  unfold PopulationCovariance PopulationVariance
  rw [zipWith_self_eq_map]
  congr 2
  apply List.map_congr_left
  intro u _
  ring

theorem sum_map_one_sub (y : List α) :
    (y.map (fun t => 1 - t)).sum = (y.length : α) - y.sum := by
  induction y with
  | nil => simp
  | cons w ws ih =>
    simp only [List.map_cons, List.sum_cons, List.length_cons, Nat.cast_succ, ih]
    ring

theorem sum_zipWith_mul_one_sub (x y : List α) (h : x.length = y.length) :
    (List.zipWith (fun u v => u * v) x (y.map (fun t => 1 - t))).sum
      = x.sum - (List.zipWith (fun u v => u * v) x y).sum := by
  induction x generalizing y with
  | nil => simp
  | cons u us ih =>
    cases y with
    | nil => simp at h
    | cons w ws =>
      have hl : us.length = ws.length := by simpa using h
      simp only [List.map_cons, List.zipWith_cons_cons, List.sum_cons, ih ws hl]
      ring

theorem PopulationCovariance_one_sub_right (x y : List α) (h : x.length = y.length)
    (hne : x ≠ []) :
    PopulationCovariance x (y.map (fun t => 1 - t)) = -PopulationCovariance x y := by
  rw [PopulationCovariance_eq x _ (by simpa using h) hne, PopulationCovariance_eq x y h hne,
    sum_zipWith_mul_one_sub x y h, sum_map_one_sub, ← h, ← neg_div]
  congr 1
  ring

theorem PopulationCovariance_comm (x y : List α) (h : x.length = y.length) (hne : x ≠ []) :
    PopulationCovariance x y = PopulationCovariance y x := by
  have hne2 : y ≠ [] := by
    intro hc
    rw [hc] at h
    exact hne (List.length_eq_zero.mp h)
  rw [PopulationCovariance_eq x y h hne, PopulationCovariance_eq y x h.symm hne2,
    List.zipWith_comm, h, mul_comm x.sum]
  congr
  funext u v
  exact mul_comm v u

theorem PopulationCovariance_one_sub_left (x y : List α) (h : x.length = y.length)
    (hne : x ≠ []) :
    PopulationCovariance (x.map (fun t => 1 - t)) y = -PopulationCovariance x y := by
  have hne2 : y ≠ [] := by
    intro hc
    rw [hc] at h
    exact hne (List.length_eq_zero.mp h)
  have hne3 : x.map (fun t => 1 - t) ≠ [] := by simpa using hne
  rw [PopulationCovariance_comm _ y (by simpa using h) hne3,
    PopulationCovariance_one_sub_right y x h.symm hne2, PopulationCovariance_comm y x h.symm hne2]

theorem PopulationVariance_one_sub (y : List α) (hne : y ≠ []) :
    PopulationVariance (y.map (fun t => 1 - t)) = PopulationVariance y := by
  have hne3 : y.map (fun t => 1 - t) ≠ [] := by simpa using hne
  rw [← PopulationCovariance_self, PopulationCovariance_one_sub_right _ y (by simp) hne3,
    PopulationCovariance_one_sub_left y y rfl hne, PopulationCovariance_self, neg_neg]

end Reflection

/-! ## Arithmetic progressions -/

section Progressions

variable {α : Type} [LinearOrderedField α]

/-- The progression `c, c + d, ..., c + d * (n - 1)` is the image of the index
series `1, ..., n` under `v ↦ d * v + (c - d)`. -/
theorem progression_eq_map (n : Nat) (c d : α) :
    (List.range n).map (fun (i : Nat) => c + d * (i : α))
      = (CreateXseries n : List α).map (fun v => d * v + (c - d)) := by
  rw [CreateXseries_eq, List.map_map]
  apply List.map_congr_left
  intro i _
  simp only [Function.comp]
  ring

/-- The value returned when the normalized prices equal the normalized index series. -/
theorem result_same (v : ℝ) (hv : 0 < v) : v / v * (v ^ 2 / (v * v)) = 1 := by
  field_simp
  ring

/-- The value returned when the normalized prices mirror the normalized index series. -/
theorem result_mirror (v : ℝ) (hv : 0 < v) : -v / v * ((-v) ^ 2 / (v * v)) = -1 := by
  field_simp
  ring

theorem CalcSlopeR2Product_progression_pos (n : Nat) (c d : ℝ) (hn : 2 ≤ n) (hd : 0 < d) :
    (SlopeR2Product.mk ((List.range n).map (fun (i : Nat) => c + d * (i : ℝ)))).CalcSlopeR2Product
      Real.sqrt = Except.ok 1 := by
  obtain ⟨nx, hnx⟩ := CreateXseries_Normalize_ok (α := ℝ) n hn
  have hny : Normalize ((List.range n).map (fun (i : Nat) => c + d * (i : ℝ))) = Except.ok nx := by
    rw [progression_eq_map, Normalize_affine _ d (c - d) hd]
    exact hnx
  obtain ⟨nx2, hnx2, _, hvx, _, hr⟩ := CalcSlopeR2Product_of_Normalize_ok Real.sqrt _ nx hny
  rw [List.length_map, List.length_range, hnx] at hnx2
  injection hnx2 with hnx2
  subst hnx2
  rw [hr, result_eq, PopulationCovariance_self, result_same _ hvx]

theorem CalcSlopeR2Product_progression_neg (n : Nat) (c d : ℝ) (hn : 2 ≤ n) (hd : d < 0) :
    (SlopeR2Product.mk ((List.range n).map (fun (i : Nat) => c + d * (i : ℝ)))).CalcSlopeR2Product
      Real.sqrt = Except.ok (-1) := by
  obtain ⟨nx, hnx⟩ := CreateXseries_Normalize_ok (α := ℝ) n hn
  have hne : nx ≠ [] := Normalize_ok_ne_nil _ nx hnx
  have hny : Normalize ((List.range n).map (fun (i : Nat) => c + d * (i : ℝ)))
      = Except.ok (nx.map (fun t => 1 - t)) := by
    rw [progression_eq_map]
    exact Normalize_affine_neg_ok _ nx d (c - d) hd hnx
  obtain ⟨nx2, hnx2, _, hvx, _, hr⟩ := CalcSlopeR2Product_of_Normalize_ok Real.sqrt _ _ hny
  rw [List.length_map, List.length_range, hnx] at hnx2
  injection hnx2 with hnx2
  subst hnx2
  rw [hr, result_eq, PopulationCovariance_one_sub_right nx nx rfl hne,
    PopulationVariance_one_sub nx hne, PopulationCovariance_self, result_mirror _ hvx]

end Progressions

section ProgressionClaims

/-- C16: in exact arithmetic, on every arithmetic progression
`p_i = c + d * i` (`i = 0, ..., n - 1`) of length `n >= 2`,
`CalcSlopeR2Product` returns exactly `1` when `d > 0` and exactly `-1` when
`d < 0`, whatever `n`, `c` and `d`. -/
theorem C16_arithmetic_progression (n : Nat) (c d : ℝ) (hn : 2 ≤ n) :
    (0 < d →
      (SlopeR2Product.mk
        ((List.range n).map (fun (i : Nat) => c + d * (i : ℝ)))).CalcSlopeR2Product Real.sqrt
        = Except.ok 1) ∧
    (d < 0 →
      (SlopeR2Product.mk
        ((List.range n).map (fun (i : Nat) => c + d * (i : ℝ)))).CalcSlopeR2Product Real.sqrt
        = Except.ok (-1)) :=
  ⟨CalcSlopeR2Product_progression_pos n c d hn, CalcSlopeR2Product_progression_neg n c d hn⟩

/-- Witness of C16: `[1, 2, 3]` and `[100, 200, 300]` both give `1`, and
`[3, 2, 1]` gives `-1`. -/
theorem C16_arithmetic_progression_witness :
    (SlopeR2Product.mk ([1, 2, 3] : List ℝ)).CalcSlopeR2Product Real.sqrt = Except.ok 1 ∧
    (SlopeR2Product.mk ([100, 200, 300] : List ℝ)).CalcSlopeR2Product Real.sqrt = Except.ok 1 ∧
    (SlopeR2Product.mk ([3, 2, 1] : List ℝ)).CalcSlopeR2Product Real.sqrt = Except.ok (-1) := by
  have e1 : (List.range 3).map (fun (i : Nat) => (1 : ℝ) + 1 * (i : ℝ)) = [1, 2, 3] := by
    simp [List.range_succ]
    norm_num
  have e2 : (List.range 3).map (fun (i : Nat) => (100 : ℝ) + 100 * (i : ℝ)) = [100, 200, 300] := by
    simp [List.range_succ]
    norm_num
  have e3 : (List.range 3).map (fun (i : Nat) => (3 : ℝ) + (-1) * (i : ℝ)) = [3, 2, 1] := by
    simp [List.range_succ]
    norm_num
  have h1 := (C16_arithmetic_progression 3 1 1 (by norm_num)).1 (by norm_num)
  have h2 := (C16_arithmetic_progression 3 100 100 (by norm_num)).1 (by norm_num)
  have h3 := (C16_arithmetic_progression 3 3 (-1) (by norm_num)).2 (by norm_num)
  rw [e1] at h1
  rw [e2] at h2
  rw [e3] at h3
  exact ⟨h1, h2, h3⟩

end ProgressionClaims

/-! ## Time reversal -/

section Reversal

variable {α : Type} [LinearOrderedField α]

/-- Reading the index series `1, ..., n` backwards is the change of scale
`v ↦ -v + (n + 1)`. -/
theorem CreateXseries_reverse (n : Nat) :
    (CreateXseries n : List α).reverse
      = (CreateXseries n : List α).map (fun v => -1 * v + ((n : α) + 1)) := by
  rw [CreateXseries_eq, ← List.map_reverse, List.range_eq_range', List.reverse_range',
    ← List.range_eq_range', List.map_map, List.map_map]
  apply List.map_congr_left
  intro i hi
  have hin : i < n := List.mem_range.mp hi
  have hle : i + 1 ≤ n := hin
  simp only [Function.comp]
  have e : 0 + n - 1 - i = n - (i + 1) := by omega
  rw [e, Nat.cast_sub hle]
  push_cast
  ring

theorem Mean_reverse (x : List α) : Mean x.reverse = Mean x := by
  unfold Mean
  rw [List.sum_reverse, List.length_reverse]

theorem PopulationVariance_reverse (x : List α) :
    PopulationVariance x.reverse = PopulationVariance x := by
  unfold PopulationVariance
  rw [Mean_reverse, List.length_reverse, List.map_reverse, List.sum_reverse]

theorem PopulationCovariance_reverse (x y : List α) (h : x.length = y.length) :
    PopulationCovariance x.reverse y.reverse = PopulationCovariance x y := by
  unfold PopulationCovariance
  rw [Mean_reverse, Mean_reverse, List.length_reverse, ← List.reverse_zipWith h,
    List.sum_reverse]

/-- The normalized index series read backwards is its reflection `t ↦ 1 - t`. -/
theorem normalized_x_reverse (n : Nat) (nx : List α)
    (h : Normalize (CreateXseries n : List α) = Except.ok nx) :
    nx.reverse = nx.map (fun t => 1 - t) := by
  have h1 := Normalize_reverse_ok _ nx h
  have h2 := Normalize_affine_neg_ok _ nx (-1) ((n : α) + 1) (by norm_num) h
  rw [CreateXseries_reverse, h2] at h1
  injection h1 with h1
  exact h1.symm

/-- Reversing the second series against the normalized index series negates
the covariance. -/
theorem PopulationCovariance_reverse_right (n : Nat) (nx y : List α)
    (h : Normalize (CreateXseries n : List α) = Except.ok nx) (hxy : nx.length = y.length) :
    PopulationCovariance nx y.reverse = -PopulationCovariance nx y := by
  have hne : nx ≠ [] := Normalize_ok_ne_nil _ nx h
  have h1 : PopulationCovariance nx y.reverse = PopulationCovariance nx.reverse y := by
    have h2 := PopulationCovariance_reverse nx.reverse y (by simpa using hxy)
    rw [List.reverse_reverse] at h2
    exact h2
  rw [h1, normalized_x_reverse n nx h, PopulationCovariance_one_sub_left nx y hxy hne]

end Reversal

section ReversalClaims

/-- C17: in exact arithmetic, whenever `CalcSlopeR2Product` returns `r` on a
price series, it returns `-r` on the reversed price series. -/
theorem C17_time_reversal (prices : List ℝ) (r : ℝ)
    (h : (SlopeR2Product.mk prices).CalcSlopeR2Product Real.sqrt = Except.ok r) :
    (SlopeR2Product.mk prices.reverse).CalcSlopeR2Product Real.sqrt = Except.ok (-r) := by
  obtain ⟨ny, hny⟩ := Normalize_ok_of_CalcSlopeR2Product_ok Real.sqrt prices r h
  obtain ⟨nx, hnx, hxy, _, _, hr⟩ := CalcSlopeR2Product_of_Normalize_ok Real.sqrt prices ny hny
  rw [h] at hr
  injection hr with hr
  have hny2 := Normalize_reverse_ok prices ny hny
  obtain ⟨nx2, hnx2, _, _, _, hr2⟩ :=
    CalcSlopeR2Product_of_Normalize_ok Real.sqrt prices.reverse ny.reverse hny2
  rw [List.length_reverse, hnx] at hnx2
  injection hnx2 with hnx2
  subst hnx2
  rw [hr2, hr, result_eq, result_eq, PopulationVariance_reverse,
    PopulationCovariance_reverse_right prices.length nx ny hnx hxy, neg_sq, neg_div, neg_mul]

/-- Witness of C17: `[1, 2]` returns `1`, so its reversal `[2, 1]` returns `-1`. -/
theorem C17_time_reversal_witness :
    (SlopeR2Product.mk ([1, 2] : List ℝ)).CalcSlopeR2Product Real.sqrt = Except.ok 1 ∧
    (SlopeR2Product.mk ([1, 2] : List ℝ).reverse).CalcSlopeR2Product Real.sqrt
      = Except.ok (-1) :=
  ⟨CalcSlopeR2Product_increasing_pair 1 2 (by norm_num),
    C17_time_reversal [1, 2] 1 (CalcSlopeR2Product_increasing_pair 1 2 (by norm_num))⟩

end ReversalClaims

/-! ## The variance of the normalized index series and of a series in `[0, 1]` -/

section Bounds

variable {α : Type} [LinearOrderedField α]

/-- The normalized index series is `0, 1/(n-1), ..., (n-1)/(n-1)`. -/
theorem Normalize_CreateXseries (n : Nat) (hn : 2 ≤ n) :
    Normalize (CreateXseries n : List α)
      = Except.ok ((List.range n).map (fun (i : Nat) => (i : α) / ((n : α) - 1))) := by
  have h1n : (1 : α) < (n : α) := by
    have : ((1 : Nat) : α) < (n : α) := Nat.cast_lt.mpr (by omega)
    simpa using this
  have hm : (1 : α) ∈ (CreateXseries n : List α) := by
    rw [CreateXseries_eq]
    exact List.mem_map.mpr ⟨0, List.mem_range.mpr (by omega), by simp⟩
  have hM : (n : α) ∈ (CreateXseries n : List α) := by
    rw [CreateXseries_eq]
    refine List.mem_map.mpr ⟨n - 1, List.mem_range.mpr (by omega), ?_⟩
    rw [Nat.cast_sub (by omega)]
    simp
  have hlo : ∀ x ∈ (CreateXseries n : List α), (1 : α) ≤ x := by
    intro x hx
    rw [CreateXseries_eq] at hx
    obtain ⟨i, _, rfl⟩ := List.mem_map.mp hx
    exact le_add_of_nonneg_left (Nat.cast_nonneg i)
  have hhi : ∀ x ∈ (CreateXseries n : List α), x ≤ (n : α) := by
    intro x hx
    rw [CreateXseries_eq] at hx
    obtain ⟨i, hi, rfl⟩ := List.mem_map.mp hx
    have hin : i + 1 ≤ n := List.mem_range.mp hi
    have : ((i + 1 : Nat) : α) ≤ (n : α) := Nat.cast_le.mpr hin
    simpa using this
  rw [Normalize_of_bounds _ 1 (n : α) hm hM hlo hhi, if_neg h1n.ne, CreateXseries_eq,
    List.map_map]
  congr 1
  apply List.map_congr_left
  intro i _
  simp only [Function.comp]
  congr 1
  ring

theorem sum_range_div (n : Nat) (k : α) (hk : k ≠ 0) :
    ((List.range n).map (fun (i : Nat) => (i : α) / k)).sum
      = (n : α) * ((n : α) - 1) / (2 * k) := by
  induction n with
  | zero => simp
  | succ m ih =>
    rw [List.sum_range_succ, ih]
    push_cast
    field_simp
    ring

theorem sum_range_div_sq (n : Nat) (k : α) (hk : k ≠ 0) :
    ((List.range n).map (fun (i : Nat) => (i : α) / k * ((i : α) / k))).sum
      = ((n : α) - 1) * (n : α) * (2 * (n : α) - 1) / (6 * (k * k)) := by
  induction n with
  | zero => simp
  | succ m ih =>
    rw [List.sum_range_succ, ih]
    push_cast
    field_simp
    ring

/-- The population variance of the normalized index series of length `n`
is `(n + 1) / (12 (n - 1))`. -/
theorem PopulationVariance_normalized_x (n : Nat) (hn : 2 ≤ n) :
    PopulationVariance ((List.range n).map (fun (i : Nat) => (i : α) / ((n : α) - 1)))
      = ((n : α) + 1) / (12 * ((n : α) - 1)) := by
  have h1n : (1 : α) < (n : α) := by
    have : ((1 : Nat) : α) < (n : α) := Nat.cast_lt.mpr (by omega)
    simpa using this
  have hk : (n : α) - 1 ≠ 0 := (sub_pos.mpr h1n).ne.symm
  have hn0 : (n : α) ≠ 0 := (lt_trans zero_lt_one h1n).ne.symm
  have hne : (List.range n).map (fun (i : Nat) => (i : α) / ((n : α) - 1)) ≠ [] := by
    intro hc
    have hl := congrArg List.length hc
    simp at hl
    omega
  rw [← PopulationCovariance_self, PopulationCovariance_eq _ _ rfl hne, zipWith_self_eq_map,
    List.map_map]
  have e : ((fun u : α => u * u) ∘ fun (i : Nat) => (i : α) / ((n : α) - 1))
      = fun (i : Nat) => (i : α) / ((n : α) - 1) * ((i : α) / ((n : α) - 1)) := rfl
  rw [e, sum_range_div_sq n _ hk, sum_range_div n _ hk, List.length_map, List.length_range]
  field_simp
  ring

theorem sum_mul_self_le_sum (y : List α) (hy : ∀ t ∈ y, 0 ≤ t ∧ t ≤ 1) :
    (List.zipWith (fun u v => u * v) y y).sum ≤ y.sum := by
  induction y with
  | nil => simp
  | cons w ws ih =>
    have hw := hy w (List.mem_cons_self w ws)
    have h1 := ih (fun t ht => hy t (List.mem_cons_of_mem w ht))
    have h2 : w * w ≤ w := by nlinarith [hw.1, hw.2]
    simp only [List.zipWith_cons_cons, List.sum_cons]
    linarith

/-- The population variance of a series with values in `[0, 1]` is at most `1/4`. -/
theorem PopulationVariance_le_quarter (y : List α) (hne : y ≠ [])
    (hy : ∀ t ∈ y, 0 ≤ t ∧ t ≤ 1) : PopulationVariance y ≤ 1 / 4 := by
  have hn : 0 < (y.length : α) := Nat.cast_pos.mpr (List.length_pos.mpr hne)
  rw [← PopulationCovariance_self, PopulationCovariance_eq y y rfl hne,
    div_le_iff₀ (mul_pos hn hn)]
  have h1 := sum_mul_self_le_sum y hy
  nlinarith [h1, sq_nonneg ((y.length : α) - 2 * y.sum), hn]

end Bounds

/-! ## The bound on the returned value -/

section ValueBound

/-- The arithmetic behind the bound: with `c^2 <= vx * vy`, the square of
`c / vx * (c^2 / (vx * vy))` is at most `vy / vx`. -/
theorem result_sq_le (c vx vy : ℝ) (hvx : 0 < vx) (hvy : 0 < vy) (hcs : c ^ 2 ≤ vx * vy) :
    (c / vx * (c ^ 2 / (vx * vy))) ^ 2 ≤ vy / vx := by
  have hp : 0 < vx * vy := mul_pos hvx hvy
  have h0 : 0 ≤ c ^ 2 / (vx * vy) := div_nonneg (sq_nonneg c) hp.le
  have h1 : c ^ 2 / (vx * vy) ≤ 1 := (div_le_one hp).mpr hcs
  have e : (c / vx * (c ^ 2 / (vx * vy))) ^ 2 = (c ^ 2 / (vx * vy)) ^ 3 * (vy / vx) := by
    field_simp
    ring
  have h3 : (c ^ 2 / (vx * vy)) ^ 3 ≤ 1 := by
    have h2 : (c ^ 2 / (vx * vy)) ^ 2 ≤ 1 := by nlinarith [h0, h1]
    nlinarith [h0, h1, h2, sq_nonneg (c ^ 2 / (vx * vy))]
  rw [e]
  exact mul_le_of_le_one_left (div_pos hvy hvx).le h3

/-- C18: in exact arithmetic, whenever `CalcSlopeR2Product` returns `r` on a
price series of length `n`, `r^2 <= 3 (n - 1) / (n + 1) < 3`; on that run
`variance_x = (n + 1) / (12 (n - 1))` and `variance_y <= 1/4`. -/
theorem C18_bounded (prices : List ℝ) (r : ℝ)
    (h : (SlopeR2Product.mk prices).CalcSlopeR2Product Real.sqrt = Except.ok r) :
    r ^ 2 ≤ 3 * ((prices.length : ℝ) - 1) / ((prices.length : ℝ) + 1) ∧
    3 * ((prices.length : ℝ) - 1) / ((prices.length : ℝ) + 1) < 3 ∧
    ∃ l : Locals ℝ, (SlopeR2Product.mk prices).CalcLocals Real.sqrt = Except.ok l ∧
      l.variance_x = ((prices.length : ℝ) + 1) / (12 * ((prices.length : ℝ) - 1)) ∧
      l.variance_y ≤ 1 / 4 := by
  obtain ⟨ny, hny⟩ := Normalize_ok_of_CalcSlopeR2Product_ok Real.sqrt prices r h
  obtain ⟨nx, hnx, hxy, hvx, hvy, hl⟩ := CalcLocals_of_Normalize_ok Real.sqrt prices ny hny
  have hr : (SlopeR2Product.mk prices).CalcSlopeR2Product Real.sqrt
      = Except.ok (Slope nx ny * (Correlation Real.sqrt nx ny * Correlation Real.sqrt nx ny)) := by
    unfold SlopeR2Product.CalcSlopeR2Product
    rw [hl]
    rfl
  rw [h] at hr
  injection hr with hr
  have hn : 2 ≤ prices.length := Normalize_ok_two_le prices ny hny
  have h1n : (1 : ℝ) < (prices.length : ℝ) := by
    have : ((1 : Nat) : ℝ) < (prices.length : ℝ) := Nat.cast_lt.mpr (by omega)
    simpa using this
  have hnx2 := Normalize_CreateXseries (α := ℝ) prices.length hn
  rw [hnx] at hnx2
  injection hnx2 with hnx2
  have hvxval : PopulationVariance nx
      = ((prices.length : ℝ) + 1) / (12 * ((prices.length : ℝ) - 1)) := by
    rw [hnx2]
    exact PopulationVariance_normalized_x prices.length hn
  have hvyle : PopulationVariance ny ≤ 1 / 4 :=
    PopulationVariance_le_quarter ny (Normalize_ok_ne_nil prices ny hny)
      (Normalize_ok_bounds prices ny hny)
  have hcs := PopulationCovariance_sq_le nx ny hxy hvx
  have hk : 0 < (prices.length : ℝ) - 1 := sub_pos.mpr h1n
  have hk2 : 0 < (prices.length : ℝ) + 1 := by linarith
  refine ⟨?_, ?_, _, hl, hvxval, hvyle⟩
  · rw [hr, result_eq]
    refine le_trans (result_sq_le _ _ _ hvx hvy hcs) ?_
    refine le_trans (div_le_div_of_nonneg_right hvyle hvx.le) ?_
    rw [hvxval]
    apply le_of_eq
    field_simp
    ring
  · rw [div_lt_iff₀ hk2]
    linarith

/-- Witness of C18 at the price series `[1, 2]`: the returned `1` meets the
bound `3 (2 - 1) / (2 + 1) = 1`. -/
theorem C18_bounded_witness :
    (1 : ℝ) ^ 2 ≤ 3 * ((([1, 2] : List ℝ).length : ℝ) - 1) / ((([1, 2] : List ℝ).length : ℝ) + 1) ∧
    3 * ((([1, 2] : List ℝ).length : ℝ) - 1) / ((([1, 2] : List ℝ).length : ℝ) + 1) < 3 ∧
    ∃ l : Locals ℝ, (SlopeR2Product.mk ([1, 2] : List ℝ)).CalcLocals Real.sqrt = Except.ok l ∧
      l.variance_x = ((([1, 2] : List ℝ).length : ℝ) + 1)
        / (12 * ((([1, 2] : List ℝ).length : ℝ) - 1)) ∧
      l.variance_y ≤ 1 / 4 :=
  C18_bounded [1, 2] 1 (CalcSlopeR2Product_increasing_pair 1 2 (by norm_num))

end ValueBound

/-! ## The frame of a call: no statement writes `close_prices` -/

section Frame

variable {α : Type}

/-- A statement that assigns a local after a call that may throw keeps `close_prices`. -/
theorem assign_keeps_close_prices {β : Type} (call : Except Exn β) (assign : β → Store α)
    (σ σ1 : Store α) (hassign : ∀ value, (assign value).close_prices = σ.close_prices)
    (h : (call >>= fun value => pure (assign value)) = Except.ok σ1) :
    σ1.close_prices = σ.close_prices := by
  cases call with
  | error e => cases h
  | ok value =>
    injection h with h
    rw [← h]
    exact hassign value

/-- A run of statements that all keep `close_prices` keeps it, also when the
run stops at a throw. -/
theorem exec_keeps_close_prices (stmts : List (Store α → Except Exn (Store α)))
    (hstmts : ∀ stmt ∈ stmts, ∀ σ σ1 : Store α, stmt σ = Except.ok σ1 →
      σ1.close_prices = σ.close_prices) (σ : Store α) :
    (exec stmts σ).2.close_prices = σ.close_prices := by
  induction stmts generalizing σ with
  | nil => rfl
  | cons stmt rest ih =>
    unfold exec
    cases hs : stmt σ with
    | error e => rfl
    | ok σ1 =>
      simp only []
      rw [ih (fun t ht => hstmts t (List.mem_cons_of_mem stmt ht)) σ1]
      exact hstmts stmt (List.mem_cons_self stmt rest) σ σ1 hs

variable [LinearOrderedField α]

/-- Every statement of the body of `CalcSlopeR2Product` leaves `close_prices` as it was. -/
theorem body_keeps_close_prices (sqrt : α → α) (stmt : Store α → Except Exn (Store α))
    (hstmt : stmt ∈ CalcSlopeR2Product_body sqrt) (σ σ1 : Store α)
    (h : stmt σ = Except.ok σ1) : σ1.close_prices = σ.close_prices := by
  simp only [CalcSlopeR2Product_body, List.mem_cons, List.mem_singleton, List.mem_nil_iff,
    or_false] at hstmt
  rcases hstmt with rfl | rfl | rfl | rfl | rfl | rfl | rfl | rfl | rfl | rfl
  · exact assign_keeps_close_prices (Normalize σ.close_prices)
      (fun value => { σ with normalized_prices := value }) σ σ1 (fun _ => rfl) h
  · exact assign_keeps_close_prices (Normalize (CreateXseries σ.normalized_prices.length))
      (fun value => { σ with normalized_x := value }) σ σ1 (fun _ => rfl) h
  · exact assign_keeps_close_prices (CalcMean σ.normalized_x)
      (fun value => { σ with x_mean := value }) σ σ1 (fun _ => rfl) h
  · exact assign_keeps_close_prices (CalcMean σ.normalized_prices)
      (fun value => { σ with y_mean := value }) σ σ1 (fun _ => rfl) h
  · injection h with h
    rw [← h]
  · injection h with h
    rw [← h]
  · unfold line77 at h
    split_ifs at h
    injection h with h
    rw [← h]
  · exact assign_keeps_close_prices
      (CalcCovariance σ.normalized_x σ.x_mean σ.normalized_prices σ.y_mean)
      (fun value => { σ with covariance := value }) σ σ1 (fun _ => rfl) h
  · injection h with h
    rw [← h]
  · injection h with h
    rw [← h]

/-- The instance after a call of `CalcSlopeR2Product` is the instance before it. -/
theorem call_CalcSlopeR2Product_snd (sqrt : α → α) (self : SlopeR2Product α) :
    (self.call_CalcSlopeR2Product sqrt).2 = self := by
  have h := exec_keeps_close_prices (CalcSlopeR2Product_body sqrt)
    (body_keeps_close_prices sqrt)
    { close_prices := self.close_prices
      normalized_prices := []
      normalized_x := []
      x_mean := 0
      y_mean := 0
      variance_x := 0
      variance_y := 0
      covariance := 0
      slope := 0
      correlation := 0 }
  unfold SlopeR2Product.call_CalcSlopeR2Product
  generalize exec (CalcSlopeR2Product_body sqrt) _ = res at h ⊢
  obtain ⟨o, σ⟩ := res
  cases o with
  | none =>
    simp only [] at h ⊢
    rw [h]
  | some e =>
    simp only [] at h ⊢
    rw [h]

/-- The statement-by-statement run has the outcome of the member function
`CalcSlopeR2Product` of lines 70-84. -/
theorem call_CalcSlopeR2Product_fst (sqrt : α → α) (self : SlopeR2Product α) :
    (self.call_CalcSlopeR2Product sqrt).1 = self.CalcSlopeR2Product sqrt := by
  unfold SlopeR2Product.call_CalcSlopeR2Product SlopeR2Product.CalcSlopeR2Product
    SlopeR2Product.CalcLocals CalcSlopeR2Product_body
  simp only [exec, line71, line72, line73, line74, line75, line76, line77, line80, line81,
    line82]
  cases h1 : Normalize self.close_prices with
  | error e => rfl
  | ok ny =>
    simp only [bind_ok, pure, Except.pure]
    cases h2 : Normalize (CreateXseries ny.length : List α) with
    | error e => rfl
    | ok nx =>
      simp only [bind_ok]
      cases h3 : CalcMean nx with
      | error e => rfl
      | ok xm =>
        simp only [bind_ok]
        cases h4 : CalcMean ny with
        | error e => rfl
        | ok ym =>
          simp only [bind_ok]
          by_cases hz : CalcVariance nx xm = 0 ∨ CalcVariance ny ym = 0
          · simp only [if_pos hz]
            rfl
          · simp only [if_neg hz]
            cases h5 : CalcCovariance nx xm ny ym with
            | error e => rfl
            | ok cov => rfl

/-- C12: a call of `CalcSlopeR2Product`, run statement by statement on the
store, leaves the instance, hence `close_prices`, unchanged, whether it returns
or throws; a second call on the same instance has the same outcome as the
first; and the outcome is the value of the member function on `close_prices`
alone. -/
theorem C12_pure (sqrt : α → α) (self : SlopeR2Product α) :
    (self.call_CalcSlopeR2Product sqrt).2 = self ∧
    (self.call_CalcSlopeR2Product sqrt).2.close_prices = self.close_prices ∧
    ((self.call_CalcSlopeR2Product sqrt).2.call_CalcSlopeR2Product sqrt).1
      = (self.call_CalcSlopeR2Product sqrt).1 ∧
    (self.call_CalcSlopeR2Product sqrt).1
      = (SlopeR2Product.mk self.close_prices).CalcSlopeR2Product sqrt := by
  refine ⟨call_CalcSlopeR2Product_snd sqrt self, ?_, ?_, call_CalcSlopeR2Product_fst sqrt self⟩
  · rw [call_CalcSlopeR2Product_snd]
  · rw [call_CalcSlopeR2Product_snd]

end Frame

/-! ## Rounding to `double` is monotone -/

namespace IEEE

theorem roundHalfEven_floor_le (x : ℚ) : ⌊x⌋ ≤ roundHalfEven x := by
  unfold roundHalfEven
  split_ifs <;> omega

theorem roundHalfEven_le_floor_add_one (x : ℚ) : roundHalfEven x ≤ ⌊x⌋ + 1 := by
  unfold roundHalfEven
  split_ifs <;> omega

theorem roundHalfEven_intCast (n : ℤ) : roundHalfEven (n : ℚ) = n := by
  unfold roundHalfEven
  rw [Int.floor_intCast]
  simp

theorem roundHalfEven_mono (x y : ℚ) (h : x ≤ y) : roundHalfEven x ≤ roundHalfEven y := by
  rcases lt_or_eq_of_le (Int.floor_mono h) with hf | hf
  · exact le_trans (roundHalfEven_le_floor_add_one x)
      (le_trans hf (roundHalfEven_floor_le y))
  · have hfr : x - ⌊x⌋ ≤ y - ⌊y⌋ := by
      rw [hf]
      linarith
    unfold roundHalfEven
    rw [hf] at hfr ⊢
    split_ifs <;> first | omega | linarith

theorem quantum_pos (a : ℚ) : 0 < quantum a :=
  zpow_pos (by norm_num) _

theorem roundMagnitude_zero : roundMagnitude 0 = 0 := by
  simp [roundMagnitude, roundHalfEven]

/-- A magnitude that is a whole number of spacings is not changed by rounding. -/
theorem roundMagnitude_of_multiple (a : ℚ) (n : ℤ) (h : a / quantum a = (n : ℚ)) :
    roundMagnitude a = a := by
  unfold roundMagnitude
  rw [h, roundHalfEven_intCast, ← h, div_mul_cancel₀ _ (quantum_pos a).ne.symm]

theorem two_zpow_eq_intCast (k : ℕ) : (2 : ℚ) ^ (k : ℤ) = (((2 : ℤ) ^ k : ℤ) : ℚ) := by
  rw [zpow_natCast]
  push_cast
  rfl

theorem roundMagnitude_one : roundMagnitude 1 = 1 := by
  apply roundMagnitude_of_multiple 1 (2 ^ 52)
  unfold quantum
  rw [Int.log_one_right, max_eq_left (by norm_num), one_div, ← zpow_neg]
  norm_num

theorem roundMagnitude_least : roundMagnitude ((2 : ℚ) ^ (-1074 : ℤ)) = (2 : ℚ) ^ (-1074 : ℤ) := by
  apply roundMagnitude_of_multiple _ 1
  unfold quantum
  have hlog : Int.log 2 ((2 : ℚ) ^ (-1074 : ℤ)) = -1074 := by
    have h := Int.log_zpow (R := ℚ) (b := 2) (by norm_num) (-1074)
    simpa using h
  rw [hlog, max_eq_right (by norm_num)]
  norm_num

/-- A positive magnitude lies below the top of its binade. -/
theorem lt_top_of_binade (a : ℚ) :
    a < (2 : ℚ) ^ (max (Int.log 2 a) (-1022) + 1) := by
  have h1 : a < ((2 : ℕ) : ℚ) ^ (Int.log 2 a + 1) := Int.lt_zpow_succ_log_self (by norm_num) a
  have h2 : ((2 : ℕ) : ℚ) ^ (Int.log 2 a + 1) ≤ (2 : ℚ) ^ (max (Int.log 2 a) (-1022) + 1) := by
    have : ((2 : ℕ) : ℚ) = 2 := by norm_num
    rw [this]
    exact zpow_le_zpow_right₀ (by norm_num) (by
      have := le_max_left (Int.log 2 a) (-1022)
      omega)
  exact lt_of_lt_of_le h1 h2

/-- A normal magnitude lies at or above the bottom of its binade. -/
theorem bottom_of_binade_le (a : ℚ) (ha : 0 < a) (hn : -1022 < max (Int.log 2 a) (-1022)) :
    (2 : ℚ) ^ (max (Int.log 2 a) (-1022)) ≤ a := by
  have he : max (Int.log 2 a) (-1022) = Int.log 2 a := by
    rcases le_total (Int.log 2 a) (-1022) with h | h
    · rw [max_eq_right h] at hn
      exact absurd hn (lt_irrefl _)
    · exact max_eq_left h
  rw [he]
  have h1 : ((2 : ℕ) : ℚ) ^ Int.log 2 a ≤ a := Int.zpow_log_le_self (by norm_num) ha
  have : ((2 : ℕ) : ℚ) = 2 := by norm_num
  rw [this] at h1
  exact h1

theorem roundMagnitude_le_top (a : ℚ) :
    roundMagnitude a ≤ (2 : ℚ) ^ (max (Int.log 2 a) (-1022) + 1) := by
  have hq := quantum_pos a
  have htop : (2 : ℚ) ^ (max (Int.log 2 a) (-1022) + 1) / quantum a = (((2 : ℤ) ^ 53 : ℤ) : ℚ) := by
    unfold quantum
    rw [← zpow_sub₀ (by norm_num)]
    have e : max (Int.log 2 a) (-1022) + 1 - (max (Int.log 2 a) (-1022) - 52) = ((53 : ℕ) : ℤ) := by
      push_cast
      ring
    rw [e, two_zpow_eq_intCast]
  have h1 : a / quantum a ≤ (2 : ℚ) ^ (max (Int.log 2 a) (-1022) + 1) / quantum a :=
    div_le_div_of_nonneg_right (lt_top_of_binade a).le hq.le
  have h2 := roundHalfEven_mono _ _ h1
  rw [htop, roundHalfEven_intCast] at h2
  have h3 : (roundHalfEven (a / quantum a) : ℚ) ≤ (((2 : ℤ) ^ 53 : ℤ) : ℚ) := Int.cast_le.mpr h2
  unfold roundMagnitude
  calc (roundHalfEven (a / quantum a) : ℚ) * quantum a
      ≤ (((2 : ℤ) ^ 53 : ℤ) : ℚ) * quantum a := mul_le_mul_of_nonneg_right h3 hq.le
    _ = (2 : ℚ) ^ (max (Int.log 2 a) (-1022) + 1) := by
        rw [← htop, div_mul_cancel₀ _ hq.ne.symm]

theorem bottom_le_roundMagnitude (a : ℚ) (ha : 0 < a)
    (hn : -1022 < max (Int.log 2 a) (-1022)) :
    (2 : ℚ) ^ (max (Int.log 2 a) (-1022)) ≤ roundMagnitude a := by
  have hq := quantum_pos a
  have hbot : (2 : ℚ) ^ (max (Int.log 2 a) (-1022)) / quantum a = (((2 : ℤ) ^ 52 : ℤ) : ℚ) := by
    unfold quantum
    rw [← zpow_sub₀ (by norm_num)]
    have e : max (Int.log 2 a) (-1022) - (max (Int.log 2 a) (-1022) - 52) = ((52 : ℕ) : ℤ) := by
      push_cast
      ring
    rw [e, two_zpow_eq_intCast]
  have h1 : (2 : ℚ) ^ (max (Int.log 2 a) (-1022)) / quantum a ≤ a / quantum a :=
    div_le_div_of_nonneg_right (bottom_of_binade_le a ha hn) hq.le
  have h2 := roundHalfEven_mono _ _ h1
  rw [hbot, roundHalfEven_intCast] at h2
  have h3 : (((2 : ℤ) ^ 52 : ℤ) : ℚ) ≤ (roundHalfEven (a / quantum a) : ℚ) := Int.cast_le.mpr h2
  unfold roundMagnitude
  calc (2 : ℚ) ^ (max (Int.log 2 a) (-1022))
      = (((2 : ℤ) ^ 52 : ℤ) : ℚ) * quantum a := by
        rw [← hbot, div_mul_cancel₀ _ hq.ne.symm]
    _ ≤ (roundHalfEven (a / quantum a) : ℚ) * quantum a := mul_le_mul_of_nonneg_right h3 hq.le

theorem roundMagnitude_nonneg (a : ℚ) (ha : 0 ≤ a) : 0 ≤ roundMagnitude a := by
  unfold roundMagnitude
  apply mul_nonneg _ (quantum_pos a).le
  have h1 : (0 : ℚ) ≤ a / quantum a := div_nonneg ha (quantum_pos a).le
  have h2 := roundHalfEven_mono _ _ h1
  have h3 : roundHalfEven (0 : ℚ) = 0 := by
    have := roundHalfEven_intCast 0
    simpa using this
  rw [h3] at h2
  exact Int.cast_nonneg.mpr h2

/-- Rounding to nearest is monotone on the magnitudes. -/
theorem roundMagnitude_mono (a b : ℚ) (ha : 0 ≤ a) (hab : a ≤ b) :
    roundMagnitude a ≤ roundMagnitude b := by
  rcases eq_or_lt_of_le ha with ha0 | hapos
  · rw [← ha0, roundMagnitude_zero]
    exact roundMagnitude_nonneg b (le_trans ha hab)
  · have hbpos : 0 < b := lt_of_lt_of_le hapos hab
    have hlog : Int.log 2 a ≤ Int.log 2 b := Int.log_mono_right hapos hab
    have he : max (Int.log 2 a) (-1022) ≤ max (Int.log 2 b) (-1022) :=
      max_le_max hlog (le_refl _)
    rcases eq_or_lt_of_le he with heq | hlt
    · have hq : quantum a = quantum b := by
        unfold quantum
        rw [heq]
      unfold roundMagnitude
      rw [hq]
      have h1 : a / quantum b ≤ b / quantum b :=
        div_le_div_of_nonneg_right hab (quantum_pos b).le
      exact mul_le_mul_of_nonneg_right (Int.cast_le.mpr (roundHalfEven_mono _ _ h1))
        (quantum_pos b).le
    · have hn : -1022 < max (Int.log 2 b) (-1022) :=
        lt_of_le_of_lt (le_max_right _ _) hlt
      calc roundMagnitude a
          ≤ (2 : ℚ) ^ (max (Int.log 2 a) (-1022) + 1) := roundMagnitude_le_top a
        _ ≤ (2 : ℚ) ^ (max (Int.log 2 b) (-1022)) :=
            zpow_le_zpow_right₀ (by norm_num) (by omega)
        _ ≤ roundMagnitude b := bottom_le_roundMagnitude b hbpos hn

end IEEE

/-! ## `Normalize` on finite `double`s -/

namespace IEEE

open Double

theorem min_element_finite (q : ℚ) (qt : List ℚ) :
    min_element (finite q) (qt.map finite) = finite (SlopeR2.min_element q qt) := by
  unfold min_element SlopeR2.min_element
  induction qt generalizing q with
  | nil => rfl
  | cons a t ih =>
    simp only [List.map_cons, List.foldl_cons, Double.lt, decide_eq_true_eq]
    split_ifs
    · exact ih a
    · exact ih q

theorem max_element_finite (q : ℚ) (qt : List ℚ) :
    max_element (finite q) (qt.map finite) = finite (SlopeR2.max_element q qt) := by
  unfold max_element SlopeR2.max_element
  induction qt generalizing q with
  | nil => rfl
  | cons a t ih =>
    simp only [List.map_cons, List.foldl_cons, Double.lt, decide_eq_true_eq]
    split_ifs
    · exact ih a
    · exact ih q

/-- On finite values, `Normalize` scans and compares as the exact function
does, and computes every element in `double` arithmetic. -/
theorem Normalize_finite (q : ℚ) (qt : List ℚ) :
    Normalize ((q :: qt).map finite) =
      if SlopeR2.min_element q qt = SlopeR2.max_element q qt then
        Except.error DegenerateSeriesError
      else Except.ok ((q :: qt).map (fun v =>
        ((finite v).sub (finite (SlopeR2.min_element q qt))).div
          ((finite (SlopeR2.max_element q qt)).sub (finite (SlopeR2.min_element q qt))))) := by
  simp only [List.map_cons, Normalize, min_element_finite, max_element_finite]
  by_cases h : SlopeR2.min_element q qt = SlopeR2.max_element q qt
  · rw [if_pos h, if_pos (by simp [Double.eq, h])]
  · rw [if_neg h, if_neg (by simp [Double.eq, h])]
    rw [foldl_push_back]
    simp

/-- An exact result of magnitude below the overflow threshold is rounded to a
finite value. -/
theorem ofRat_of_nonneg (a : ℚ) (h0 : 0 ≤ a) (h1 : a < overflowThreshold) :
    ofRat a = finite (roundMagnitude a) := by
  have hT : (0 : ℚ) < overflowThreshold := lt_of_le_of_lt h0 h1
  unfold ofRat
  rw [if_neg (not_le.mpr h1), if_neg (by
    intro hc
    linarith), if_pos h0]

/-- Every finite `double` is a whole multiple of the least positive one. -/
theorem IsDouble.on_grid (q : ℚ) (h : IsDouble q) : ∃ k : ℤ, q = (k : ℚ) * (2 : ℚ) ^ (-1074 : ℤ) := by
  obtain ⟨n, e, _, he, _, hq⟩ := h
  refine ⟨n * 2 ^ (e + 1074).toNat, ?_⟩
  have h1 : ((e + 1074).toNat : ℤ) = e + 1074 := Int.toNat_of_nonneg (by omega)
  have h2 : (2 : ℚ) ^ e = (2 : ℚ) ^ (((e + 1074).toNat : ℤ)) * (2 : ℚ) ^ (-1074 : ℤ) := by
    rw [← zpow_add₀ (by norm_num), h1]
    congr 1
    ring
  rw [hq, h2, zpow_natCast]
  push_cast
  ring

/-- Two distinct finite `double`s differ by at least the least positive one. -/
theorem IsDouble.gap (a b : ℚ) (ha : IsDouble a) (hb : IsDouble b) (hab : a < b) :
    (2 : ℚ) ^ (-1074 : ℤ) ≤ b - a := by
  obtain ⟨ka, hka⟩ := IsDouble.on_grid a ha
  obtain ⟨kb, hkb⟩ := IsDouble.on_grid b hb
  have hu : (0 : ℚ) < (2 : ℚ) ^ (-1074 : ℤ) := zpow_pos (by norm_num) _
  have hk : ka < kb := by
    by_contra hc
    have h1 : (kb : ℚ) ≤ (ka : ℚ) := Int.cast_le.mpr (not_lt.mp hc)
    have h2 : b ≤ a := by
      rw [hka, hkb]
      exact mul_le_mul_of_nonneg_right h1 hu.le
    exact absurd hab (not_lt.mpr h2)
  have hk1 : (1 : ℚ) ≤ (kb : ℚ) - (ka : ℚ) := by
    have : ka + 1 ≤ kb := hk
    have h3 : ((ka + 1 : ℤ) : ℚ) ≤ (kb : ℚ) := Int.cast_le.mpr this
    push_cast at h3
    linarith
  rw [hka, hkb, ← sub_mul]
  calc (2 : ℚ) ^ (-1074 : ℤ) = 1 * (2 : ℚ) ^ (-1074 : ℤ) := (one_mul _).symm
    _ ≤ ((kb : ℚ) - (ka : ℚ)) * (2 : ℚ) ^ (-1074 : ℤ) := mul_le_mul_of_nonneg_right hk1 hu.le

end IEEE

/-! ## The range of `Normalize` in `double` arithmetic -/

namespace IEEE

open Double

/-- The element that `Normalize` computes from a finite value `v` between the
minimum `m` and the maximum `M`, when `M - m` does not overflow. -/
theorem normalized_element (m M v : ℚ) (hm : IsDouble m) (hM : IsDouble M) (hlt : m < M)
    (hmv : m ≤ v) (hvM : v ≤ M) (hrange : M - m < overflowThreshold) :
    ((finite v).sub (finite m)).div ((finite M).sub (finite m))
      = finite (roundMagnitude (roundMagnitude (v - m) / roundMagnitude (M - m))) ∧
    0 < roundMagnitude (M - m) ∧
    0 ≤ roundMagnitude (v - m) / roundMagnitude (M - m) ∧
    roundMagnitude (v - m) / roundMagnitude (M - m) ≤ 1 := by
  have hv0 : 0 ≤ v - m := sub_nonneg.mpr hmv
  have hD0 : 0 ≤ M - m := sub_nonneg.mpr hlt.le
  have hvD : v - m ≤ M - m := sub_le_sub_right hvM m
  have hu : (0 : ℚ) < (2 : ℚ) ^ (-1074 : ℤ) := zpow_pos (by norm_num) _
  have hDpos : 0 < roundMagnitude (M - m) := by
    have h1 := roundMagnitude_mono _ _ hu.le (IsDouble.gap m M hm hM hlt)
    rw [roundMagnitude_least] at h1
    exact lt_of_lt_of_le hu h1
  have hn0 : 0 ≤ roundMagnitude (v - m) := roundMagnitude_nonneg _ hv0
  have hnD : roundMagnitude (v - m) ≤ roundMagnitude (M - m) := roundMagnitude_mono _ _ hv0 hvD
  have hq0 : 0 ≤ roundMagnitude (v - m) / roundMagnitude (M - m) := div_nonneg hn0 hDpos.le
  have hq1 : roundMagnitude (v - m) / roundMagnitude (M - m) ≤ 1 := (div_le_one hDpos).mpr hnD
  have hT : (1 : ℚ) < overflowThreshold := by norm_num [overflowThreshold]
  refine ⟨?_, hDpos, hq0, hq1⟩
  simp only [Double.sub]
  rw [ofRat_of_nonneg _ hv0 (lt_of_le_of_lt hvD hrange), ofRat_of_nonneg _ hD0 hrange]
  simp only [Double.div]
  rw [if_neg hDpos.ne.symm, ofRat_of_nonneg _ hq0 (lt_of_le_of_lt hq1 hT)]

/-- C9 (amended): for every non-empty, non-constant series `s` of finite
`double`s whose range `max s - min s` does not overflow, `Normalize(s)` returns
a series `out` of finite `double`s of the same length whose `i`-th element is
the `double` expression `(s_i - min s) / (max s - min s)`, where `min s` and
`max s` are the least and the greatest element of `s`; every element of `out`
lies in `[0, 1]`, the least element of `out` is exactly `0`, its greatest
element is exactly `1`, and `s_i <= s_j` implies `out_i <= out_j`. -/
theorem C9_Normalize_range (s : List ℚ) (hd : ∀ q ∈ s, IsDouble q) (_hne : s ≠ [])
    (hnc : ∃ x ∈ s, ∃ y ∈ s, x ≠ y) (hrange : ∀ x ∈ s, ∀ y ∈ s, x - y < overflowThreshold) :
    ∃ (out : List ℚ) (m M : ℚ),
      Normalize (s.map finite) = Except.ok (out.map finite) ∧
      (m ∈ s ∧ ∀ x ∈ s, m ≤ x) ∧ (M ∈ s ∧ ∀ x ∈ s, x ≤ M) ∧
      out.map finite
        = s.map (fun v => ((finite v).sub (finite m)).div ((finite M).sub (finite m))) ∧
      ∃ hlen : out.length = s.length,
        (∀ i : Fin s.length, finite (out.get (Fin.cast hlen.symm i))
          = ((finite (s.get i)).sub (finite m)).div ((finite M).sub (finite m))) ∧
        (∀ y ∈ out, 0 ≤ y ∧ y ≤ 1) ∧
        ((0 : ℚ) ∈ out ∧ ∀ y ∈ out, 0 ≤ y) ∧
        ((1 : ℚ) ∈ out ∧ ∀ y ∈ out, y ≤ 1) ∧
        (∀ i j : Fin s.length, s.get i ≤ s.get j →
          out.get (Fin.cast hlen.symm i) ≤ out.get (Fin.cast hlen.symm j)) := by
  obtain ⟨x, hx, y, hy, hxy⟩ := hnc
  cases s with
  | nil => cases hx
  | cons q qt =>
    have hmem_m := SlopeR2.min_element_mem q qt
    have hmem_M := SlopeR2.max_element_mem q qt
    have hlo := SlopeR2.min_element_le q qt
    have hhi := SlopeR2.le_max_element q qt
    have hne : SlopeR2.min_element q qt ≠ SlopeR2.max_element q qt := by
      intro hc
      exact hxy ((SlopeR2.all_eq_of_min_eq_max q qt hc x hx).trans
        (SlopeR2.all_eq_of_min_eq_max q qt hc y hy).symm)
    have hlt : SlopeR2.min_element q qt < SlopeR2.max_element q qt :=
      lt_of_le_of_ne (SlopeR2.min_element_le_max_element q qt) hne
    have hr := hrange _ hmem_M _ hmem_m
    have hel : ∀ v ∈ q :: qt, _ := fun v hv =>
      normalized_element (SlopeR2.min_element q qt) (SlopeR2.max_element q qt) v
        (hd _ hmem_m) (hd _ hmem_M) hlt (hlo v hv) (hhi v hv) hr
    have hmap : ((q :: qt).map (fun v =>
          roundMagnitude (roundMagnitude (v - SlopeR2.min_element q qt)
            / roundMagnitude (SlopeR2.max_element q qt - SlopeR2.min_element q qt)))).map finite
        = (q :: qt).map (fun v =>
          ((finite v).sub (finite (SlopeR2.min_element q qt))).div
            ((finite (SlopeR2.max_element q qt)).sub (finite (SlopeR2.min_element q qt)))) := by
      rw [List.map_map]
      apply List.map_congr_left
      intro v hv
      exact ((hel v hv).1).symm
    have hb : ∀ t ∈ (q :: qt).map (fun v =>
          roundMagnitude (roundMagnitude (v - SlopeR2.min_element q qt)
            / roundMagnitude (SlopeR2.max_element q qt - SlopeR2.min_element q qt))),
        0 ≤ t ∧ t ≤ 1 := by
      intro t ht
      obtain ⟨v, hv, rfl⟩ := List.mem_map.mp ht
      obtain ⟨_, _, hq0, hq1⟩ := hel v hv
      refine ⟨roundMagnitude_nonneg _ hq0, ?_⟩
      have h1 := roundMagnitude_mono _ _ hq0 hq1
      rw [roundMagnitude_one] at h1
      exact h1
    have hDpos := (hel _ hmem_m).2.1
    refine ⟨_, SlopeR2.min_element q qt, SlopeR2.max_element q qt, ?_, ⟨hmem_m, hlo⟩,
      ⟨hmem_M, hhi⟩, hmap, by simp, ?_, hb, ⟨?_, fun t ht => (hb t ht).1⟩,
      ⟨?_, fun t ht => (hb t ht).2⟩, ?_⟩
    · rw [Normalize_finite, if_neg hne, hmap]
    · intro i
      simp only [List.get_eq_getElem, Fin.coe_cast, List.getElem_map]
      exact ((hel _ (List.getElem_mem _)).1).symm
    · refine List.mem_map.mpr ⟨SlopeR2.min_element q qt, hmem_m, ?_⟩
      rw [sub_self, roundMagnitude_zero, zero_div, roundMagnitude_zero]
    · refine List.mem_map.mpr ⟨SlopeR2.max_element q qt, hmem_M, ?_⟩
      rw [div_self hDpos.ne.symm, roundMagnitude_one]
    · intro i j hij
      simp only [List.get_eq_getElem, Fin.coe_cast, List.getElem_map]
      simp only [List.get_eq_getElem] at hij
      have hi := List.getElem_mem (l := q :: qt) i.isLt
      have hj := List.getElem_mem (l := q :: qt) j.isLt
      have h1 : (q :: qt)[i.val] - SlopeR2.min_element q qt
          ≤ (q :: qt)[j.val] - SlopeR2.min_element q qt := sub_le_sub_right hij _
      have h2 := roundMagnitude_mono _ _ (sub_nonneg.mpr (hlo _ hi)) h1
      exact roundMagnitude_mono _ _ (hel _ hi).2.2.1
        (div_le_div_of_nonneg_right h2 hDpos.le)

end IEEE

/-! ## The comparisons of `double`s without NaN -/

namespace IEEE

open Double

theorem Double.eq_iff (a b : Double) : a.eq b = true ↔ a ≠ nan ∧ b ≠ nan ∧ a = b := by
  cases a <;> cases b <;> simp [Double.eq]

theorem Double.le_refl (a : Double) (ha : a ≠ nan) : a.le a = true := by
  cases a <;> simp [Double.le, Double.eq] at ha ⊢

theorem Double.le_of_lt (a b : Double) (h : a.lt b = true) : a.le b = true := by
  simp [Double.le, h]

theorem Double.le_of_not_lt (a b : Double) (ha : a ≠ nan) (hb : b ≠ nan)
    (h : ¬ a.lt b = true) : b.le a = true := by
  cases a <;> cases b <;> simp [Double.le, Double.lt, Double.eq] at ha hb h ⊢
  rename_i p q
  rcases lt_or_eq_of_le h with h1 | h1
  · exact Or.inl h1
  · exact Or.inr h1

theorem Double.le_trans (a b c : Double) (hab : a.le b = true) (hbc : b.le c = true) :
    a.le c = true := by
  cases a <;> cases b <;> cases c <;> simp [Double.le, Double.lt, Double.eq] at hab hbc ⊢
  rename_i p q r
  rcases hab with h1 | h1 <;> rcases hbc with h2 | h2
  · exact Or.inl (lt_trans h1 h2)
  · exact Or.inl (h2 ▸ h1)
  · exact Or.inl (h1 ▸ h2)
  · exact Or.inr (h1.trans h2)

theorem Double.le_antisymm (a b : Double) (hab : a.le b = true) (hba : b.le a = true) :
    a = b := by
  cases a <;> cases b <;> simp [Double.le, Double.lt, Double.eq] at hab hba ⊢
  rename_i p q
  rcases hab with h1 | h1
  · rcases hba with h2 | h2
    · exact absurd h1 (lt_asymm h2)
    · exact h2.symm
  · exact h1

theorem Double.ne_nan_of_le_left (a b : Double) (h : a.le b = true) : a ≠ nan := by
  cases a <;> simp [Double.le, Double.lt, Double.eq] at h ⊢

/-- On a range without NaN the scan of `std::min_element` returns an element
that is `<=` every element. -/
theorem min_element_spec (vs : List Double) (v : Double) (h : ∀ x ∈ v :: vs, x ≠ nan) :
    min_element v vs ∈ v :: vs ∧ ∀ x ∈ v :: vs, (min_element v vs).le x = true := by
  induction vs generalizing v with
  | nil =>
    refine ⟨List.mem_cons_self v [], ?_⟩
    intro x hx
    rw [List.mem_singleton.mp hx]
    exact Double.le_refl v (h v (List.mem_cons_self v []))
  | cons a t ih =>
    have hv : v ≠ nan := h v (List.mem_cons_self v _)
    have ha : a ≠ nan := h a (List.mem_cons_of_mem v (List.mem_cons_self a t))
    have hstep : min_element v (a :: t) = min_element (if a.lt v then a else v) t := rfl
    rw [hstep]
    by_cases hlt : a.lt v = true
    · rw [if_pos hlt]
      obtain ⟨h1, h2⟩ := ih a (fun x hx => h x (List.mem_cons_of_mem v hx))
      refine ⟨List.mem_cons_of_mem v h1, ?_⟩
      intro x hx
      rcases List.mem_cons.mp hx with rfl | hx
      · exact Double.le_trans _ a _ (h2 a (List.mem_cons_self a t)) (Double.le_of_lt a _ hlt)
      · exact h2 x hx
    · rw [if_neg hlt]
      obtain ⟨h1, h2⟩ := ih v (fun x hx => by
        rcases List.mem_cons.mp hx with rfl | hx
        · exact hv
        · exact h x (List.mem_cons_of_mem v (List.mem_cons_of_mem a hx)))
      constructor
      · rcases List.mem_cons.mp h1 with h3 | h3
        · rw [h3]
          exact List.mem_cons_self v _
        · exact List.mem_cons_of_mem v (List.mem_cons_of_mem a h3)
      · intro x hx
        rcases List.mem_cons.mp hx with rfl | hx
        · exact h2 x (List.mem_cons_self x t)
        · rcases List.mem_cons.mp hx with rfl | hx
          · exact Double.le_trans _ v _ (h2 v (List.mem_cons_self v t))
              (Double.le_of_not_lt x v ha hv hlt)
          · exact h2 x (List.mem_cons_of_mem v hx)

/-- On a range without NaN the scan of `std::max_element` returns an element
that every element is `<=`. -/
theorem max_element_spec (vs : List Double) (v : Double) (h : ∀ x ∈ v :: vs, x ≠ nan) :
    max_element v vs ∈ v :: vs ∧ ∀ x ∈ v :: vs, x.le (max_element v vs) = true := by
  induction vs generalizing v with
  | nil =>
    refine ⟨List.mem_cons_self v [], ?_⟩
    intro x hx
    rw [List.mem_singleton.mp hx]
    exact Double.le_refl v (h v (List.mem_cons_self v []))
  | cons a t ih =>
    have hv : v ≠ nan := h v (List.mem_cons_self v _)
    have ha : a ≠ nan := h a (List.mem_cons_of_mem v (List.mem_cons_self a t))
    have hstep : max_element v (a :: t) = max_element (if v.lt a then a else v) t := rfl
    rw [hstep]
    by_cases hlt : v.lt a = true
    · rw [if_pos hlt]
      obtain ⟨h1, h2⟩ := ih a (fun x hx => h x (List.mem_cons_of_mem v hx))
      refine ⟨List.mem_cons_of_mem v h1, ?_⟩
      intro x hx
      rcases List.mem_cons.mp hx with rfl | hx
      · exact Double.le_trans _ a _ (Double.le_of_lt _ a hlt) (h2 a (List.mem_cons_self a t))
      · exact h2 x hx
    · rw [if_neg hlt]
      obtain ⟨h1, h2⟩ := ih v (fun x hx => by
        rcases List.mem_cons.mp hx with rfl | hx
        · exact hv
        · exact h x (List.mem_cons_of_mem v (List.mem_cons_of_mem a hx)))
      constructor
      · rcases List.mem_cons.mp h1 with h3 | h3
        · rw [h3]
          exact List.mem_cons_self v _
        · exact List.mem_cons_of_mem v (List.mem_cons_of_mem a h3)
      · intro x hx
        rcases List.mem_cons.mp hx with rfl | hx
        · exact h2 x (List.mem_cons_self x t)
        · rcases List.mem_cons.mp hx with rfl | hx
          · exact Double.le_trans _ v _ (Double.le_of_not_lt v x hv ha hlt)
              (h2 v (List.mem_cons_self v t))
          · exact h2 x (List.mem_cons_of_mem v hx)

/-- On a range without NaN, the two scans compare equal exactly when all
values compare equal. -/
theorem min_eq_max_iff (v : Double) (vs : List Double) (h : ∀ x ∈ v :: vs, x ≠ nan) :
    (min_element v vs).eq (max_element v vs) = true ↔
      ∀ x ∈ v :: vs, ∀ y ∈ v :: vs, x.eq y = true := by
  obtain ⟨hm1, hm2⟩ := min_element_spec vs v h
  obtain ⟨hM1, hM2⟩ := max_element_spec vs v h
  constructor
  · intro he
    have hmM : min_element v vs = max_element v vs := ((Double.eq_iff _ _).mp he).2.2
    have hall : ∀ x ∈ v :: vs, x = min_element v vs := by
      intro x hx
      refine Double.le_antisymm _ _ ?_ (hm2 x hx)
      rw [hmM]
      exact hM2 x hx
    intro x hx y hy
    rw [Double.eq_iff]
    exact ⟨h x hx, h y hy, (hall x hx).trans (hall y hy).symm⟩
  · intro hall
    exact hall _ hm1 _ hM1

theorem Normalize_double_nil : Normalize [] = Except.error EmptySeriesError := rfl

theorem Normalize_double_cons (v : Double) (vs : List Double) :
    Normalize (v :: vs) =
      if (min_element v vs).eq (max_element v vs) = true then
        Except.error DegenerateSeriesError
      else Except.ok ((v :: vs).map (fun val =>
        (val.sub (min_element v vs)).div ((max_element v vs).sub (min_element v vs)))) := by
  simp only [Normalize]
  split_ifs with h
  · rfl
  · rw [foldl_push_back]
    rfl

end IEEE

/-! ## Claims on `Normalize` in `double` arithmetic -/

namespace IEEE

open Double

/-- C9 (counterexample): the finite, non-constant series `[-2^1023, 2^1023]`.
The difference `max - min = 2^1024` overflows to `+inf` on line 32, so
`Normalize` returns `[0, NaN]`: the last element is not in `[0, 1]`, `1` does
not occur in the output, and the order `s_0 <= s_1` is not kept. -/
theorem C9_Normalize_overflow :
    IsDouble (-(2 ^ 1023)) ∧ IsDouble (2 ^ 1023) ∧
    (-(2 : ℚ) ^ 1023 ≠ (2 : ℚ) ^ 1023) ∧
    Normalize [finite (-(2 ^ 1023)), finite (2 ^ 1023)] = Except.ok [finite 0, nan] ∧
    ¬ (∀ y ∈ [finite 0, nan], (finite 0).le y = true ∧ y.le (finite 1) = true) ∧
    finite 1 ∉ [finite 0, nan] ∧
    (finite (-(2 ^ 1023))).le (finite (2 ^ 1023)) = true ∧
    ¬ ((finite 0).le nan = true) := by
  have hlt : ¬ ((2 : ℚ) ^ 1023 < -(2 : ℚ) ^ 1023) := by norm_num
  have hlt2 : (-(2 : ℚ) ^ 1023 < (2 : ℚ) ^ 1023) := by norm_num
  have hne : ¬ (-(2 : ℚ) ^ 1023 = (2 : ℚ) ^ 1023) := by norm_num
  have e2 : ((2 : ℚ) ^ 1023) - (-(2 : ℚ) ^ 1023) = 2 ^ 1024 := by ring
  have h0 : ofRat 0 = finite 0 := by
    rw [ofRat_of_nonneg 0 (le_refl 0) (by norm_num [overflowThreshold]), roundMagnitude_zero]
  have hinf : ofRat (2 ^ 1024) = pos_inf := by
    have h1 : overflowThreshold ≤ 2 ^ 1024 := by norm_num [overflowThreshold]
    simp [ofRat, h1]
  have hd1 : IsDouble (2 ^ 1023) := by
    refine ⟨2 ^ 52, 971, by norm_num, by norm_num, by norm_num, ?_⟩
    norm_num [← zpow_natCast]
  have hd2 : IsDouble (-(2 ^ 1023)) := by
    refine ⟨-(2 ^ 52), 971, by norm_num, by norm_num, by norm_num, ?_⟩
    norm_num [← zpow_natCast]
  refine ⟨hd2, hd1, hne, ?_, ?_, ?_, ?_, ?_⟩
  · simp [Normalize, min_element, max_element, Double.lt, Double.eq, Double.sub, Double.div,
      hlt, hlt2, hne, e2, h0, hinf]
  · intro hc
    have h1 := (hc nan (by simp)).1
    simp [Double.le, Double.lt, Double.eq] at h1
  · simp
  · simp [Double.le, Double.lt, hlt2]
  · simp [Double.le, Double.lt, Double.eq]

/-- An infinite value breaks the range as an overflow does: `[1, +inf]` is
returned as `[0, NaN]`. -/
theorem Normalize_infinite_range :
    Normalize [finite 1, pos_inf] = Except.ok [finite 0, nan] := by
  have h0 : ofRat 0 = finite 0 := by
    rw [ofRat_of_nonneg 0 (le_refl 0) (by norm_num [overflowThreshold]), roundMagnitude_zero]
  simp [Normalize, min_element, max_element, Double.lt, Double.eq, Double.sub, Double.div, h0]

/-- Witness of C9 (amended) at the series `[3, 1, 2]` of finite `double`s. -/
theorem C9_Normalize_range_witness :
    (∀ q ∈ ([3, 1, 2] : List ℚ), IsDouble q) ∧
    (∀ x ∈ ([3, 1, 2] : List ℚ), ∀ y ∈ ([3, 1, 2] : List ℚ), x - y < overflowThreshold) ∧
    ∃ (out : List ℚ) (m M : ℚ),
      Normalize (([3, 1, 2] : List ℚ).map finite) = Except.ok (out.map finite) ∧
      (m ∈ ([3, 1, 2] : List ℚ) ∧ ∀ x ∈ ([3, 1, 2] : List ℚ), m ≤ x) ∧
      (M ∈ ([3, 1, 2] : List ℚ) ∧ ∀ x ∈ ([3, 1, 2] : List ℚ), x ≤ M) ∧
      out.map finite = ([3, 1, 2] : List ℚ).map
        (fun v => ((finite v).sub (finite m)).div ((finite M).sub (finite m))) ∧
      ∃ hlen : out.length = ([3, 1, 2] : List ℚ).length,
        (∀ i : Fin ([3, 1, 2] : List ℚ).length, finite (out.get (Fin.cast hlen.symm i))
          = ((finite (([3, 1, 2] : List ℚ).get i)).sub (finite m)).div
            ((finite M).sub (finite m))) ∧
        (∀ y ∈ out, 0 ≤ y ∧ y ≤ 1) ∧
        ((0 : ℚ) ∈ out ∧ ∀ y ∈ out, 0 ≤ y) ∧
        ((1 : ℚ) ∈ out ∧ ∀ y ∈ out, y ≤ 1) ∧
        (∀ i j : Fin ([3, 1, 2] : List ℚ).length,
          ([3, 1, 2] : List ℚ).get i ≤ ([3, 1, 2] : List ℚ).get j →
          out.get (Fin.cast hlen.symm i) ≤ out.get (Fin.cast hlen.symm j)) := by
  have hd : ∀ q ∈ ([3, 1, 2] : List ℚ), IsDouble q := by
    intro q hq
    simp only [List.mem_cons, List.mem_singleton, List.mem_nil_iff, or_false] at hq
    rcases hq with rfl | rfl | rfl
    · exact ⟨3, 0, by norm_num, by norm_num, by norm_num, by norm_num⟩
    · exact ⟨1, 0, by norm_num, by norm_num, by norm_num, by norm_num⟩
    · exact ⟨2, 0, by norm_num, by norm_num, by norm_num, by norm_num⟩
  have hr : ∀ x ∈ ([3, 1, 2] : List ℚ), ∀ y ∈ ([3, 1, 2] : List ℚ),
      x - y < overflowThreshold := by
    intro x hx y hy
    simp only [List.mem_cons, List.mem_singleton, List.mem_nil_iff, or_false] at hx hy
    rcases hx with rfl | rfl | rfl <;> rcases hy with rfl | rfl | rfl <;>
      norm_num [overflowThreshold]
  exact ⟨hd, hr, C9_Normalize_range [3, 1, 2] hd (by simp)
    ⟨3, by simp, 1, by simp, by norm_num⟩ hr⟩

/-- C10 (counterexample): the one-element series `[NaN]` is returned as `[NaN]`
without any exception, because `NaN == NaN` is false on line 27; and the
series `[1, NaN, 1]`, whose values are not all equal, throws the
degenerate-series exception, because both scans skip the NaN. -/
theorem C10_Normalize_nan :
    Normalize [nan] = Except.ok [nan] ∧
    Normalize [nan] ≠ Except.error DegenerateSeriesError ∧
    Normalize [finite 1, nan, finite 1] = Except.error DegenerateSeriesError ∧
    ¬ (∀ x ∈ [finite 1, nan, finite 1], ∀ y ∈ [finite 1, nan, finite 1], x.eq y = true) := by
  have h1 : Normalize [nan] = Except.ok [nan] := by
    simp [Normalize, min_element, max_element, Double.eq, Double.sub, Double.div]
  refine ⟨h1, ?_, ?_, ?_⟩
  · rw [h1]
    intro hc
    cases hc
  · simp [Normalize, min_element, max_element, Double.lt, Double.eq]
  · intro hc
    have h2 := hc nan (by simp) nan (by simp)
    simp [Double.eq] at h2

/-- C10 (amended): on every series of `double`s without NaN, `Normalize` throws
the empty-series exception exactly on the series of length 0, throws the
degenerate-series exception exactly on the non-empty series whose scanned
minimum and maximum compare equal (equivalently, whose values all compare
equal; every one-element series is such), throws nothing else, and returns a
value on every other series. -/
theorem C10_Normalize_failure (s : List Double) (hnan : ∀ x ∈ s, x ≠ nan) :
    (Normalize s = Except.error EmptySeriesError ↔ s.length = 0) ∧
      (Normalize s = Except.error DegenerateSeriesError ↔
        ∃ v vs, s = v :: vs ∧ (min_element v vs).eq (max_element v vs) = true) ∧
      ((∃ v vs, s = v :: vs ∧ (min_element v vs).eq (max_element v vs) = true) ↔
        s ≠ [] ∧ ∀ x ∈ s, ∀ y ∈ s, x.eq y = true) ∧
      (∀ v : Double, v ≠ nan → Normalize [v] = Except.error DegenerateSeriesError) ∧
      (∀ e, Normalize s = Except.error e → e = EmptySeriesError ∨ e = DegenerateSeriesError) ∧
      ((∃ out, Normalize s = Except.ok out) ↔
        ¬ (s.length = 0 ∨ (s ≠ [] ∧ ∀ x ∈ s, ∀ y ∈ s, x.eq y = true))) := by
  have hED : EmptySeriesError ≠ DegenerateSeriesError := by decide
  have hsingle : ∀ v : Double, v ≠ nan → Normalize [v] = Except.error DegenerateSeriesError := by
    intro v hv
    rw [Normalize_double_cons, if_pos]
    exact (Double.eq_iff _ _).mpr ⟨hv, hv, rfl⟩
  cases s with
  | nil =>
    refine ⟨by simp [Normalize_double_nil], ?_, by simp, hsingle, ?_, ?_⟩
    · simp [Normalize_double_nil, hED]
    · intro e h
      rw [Normalize_double_nil] at h
      injection h with h
      exact Or.inl h.symm
    · simp [Normalize_double_nil]
  | cons v vs =>
    have hiff := min_eq_max_iff v vs hnan
    by_cases hmm : (min_element v vs).eq (max_element v vs) = true
    · have hN : Normalize (v :: vs) = Except.error DegenerateSeriesError := by
        rw [Normalize_double_cons, if_pos hmm]
      refine ⟨?_, ?_, ?_, hsingle, ?_, ?_⟩
      · rw [hN]
        simp [hED.symm]
      · rw [hN]
        simp only [true_iff]
        exact ⟨v, vs, rfl, hmm⟩
      · constructor
        · intro _
          exact ⟨List.cons_ne_nil v vs, hiff.mp hmm⟩
        · intro _
          exact ⟨v, vs, rfl, hmm⟩
      · intro e h
        rw [hN] at h
        injection h with h
        exact Or.inr h.symm
      · rw [hN]
        constructor
        · rintro ⟨out, h⟩
          cases h
        · intro h
          exact absurd (Or.inr ⟨List.cons_ne_nil v vs, hiff.mp hmm⟩) h
    · have hN : Normalize (v :: vs) = Except.ok ((v :: vs).map (fun val =>
          (val.sub (min_element v vs)).div ((max_element v vs).sub (min_element v vs)))) := by
        rw [Normalize_double_cons, if_neg hmm]
      refine ⟨?_, ?_, ?_, hsingle, ?_, ?_⟩
      · rw [hN]
        simp
      · rw [hN]
        constructor
        · intro h
          cases h
        · rintro ⟨v1, vs1, h1, h2⟩
          injection h1 with h3 h4
          subst h3
          subst h4
          exact absurd h2 hmm
      · constructor
        · rintro ⟨v1, vs1, h1, h2⟩
          injection h1 with h3 h4
          subst h3
          subst h4
          exact absurd h2 hmm
        · rintro ⟨_, h⟩
          exact absurd (hiff.mpr h) hmm
      · intro e h
        rw [hN] at h
        cases h
      · constructor
        · intro _ h
          rcases h with h | h
          · simp at h
          · exact hmm (hiff.mpr h.2)
        · intro _
          exact ⟨_, hN⟩

/-- Witness of C10 (amended): the series `[5, 5, 5]` without NaN throws the
degenerate-series exception, and so does the one-element series `[+inf]`. -/
theorem C10_Normalize_failure_witness :
    (∀ x ∈ [finite 5, finite 5, finite 5], x ≠ nan) ∧
    Normalize [finite 5, finite 5, finite 5] = Except.error DegenerateSeriesError ∧
    Normalize [pos_inf] = Except.error DegenerateSeriesError := by
  have hnan : ∀ x ∈ [finite 5, finite 5, finite 5], x ≠ nan := by
    intro x hx
    simp only [List.mem_cons, List.mem_singleton, List.mem_nil_iff, or_false] at hx
    rcases hx with rfl | rfl | rfl <;> simp
  have h := C10_Normalize_failure [finite 5, finite 5, finite 5] hnan
  refine ⟨hnan, ?_, h.2.2.2.1 pos_inf (by simp)⟩
  refine h.2.1.mpr ⟨finite 5, [finite 5, finite 5], rfl, ?_⟩
  simp [min_element, max_element, Double.lt, Double.eq]

end IEEE

end SlopeR2
